import Mathlib

/-!
# Verification of the configuration-persistence engine

Shallow embedding of the plugin's core (dotpath engine, format codecs,
atomic file writer, keyring adapter, operation orchestrator) together with
proofs about the spec's claims.

Conventions:
* `serde_json::Value` is embedded as the inductive `Json` below; its object
  maps (insertion-ordered, unique keys) are association lists mutated by
  `minsert` (replace-in-place or append), looked up by `mlookup`.
* Fallible Rust functions returning `Result<T, Error>` become
  `Except Error T`.
* Bytes are `Nat`s; external byte-level collaborators (serde_json, bincode,
  the AEAD cipher) are modelled at their interface boundary as documented on
  each definition.
-/

/-- Embedding of the crate's `Error` enum (src/error.rs).  `Io` carries a
message instead of an `std::io::Error` payload. -/
inductive Error where
  | Io (msg : String)
  | Storage (msg : String)
  | Keyring (msg : String)
  | Dotpath (msg : String)
  | InvalidPayload (msg : String)
  | Json (msg : String)
deriving Repr, DecidableEq

/-- Embedding of `serde_json::Value`: null, bool, number, string, array,
object.  Numbers are modelled as integers (the engine never manufactures
non-integer numbers; float fidelity is outside this model).  Objects are
insertion-ordered association lists with unique keys, as in serde_json's
`preserve_order` map. -/
inductive Json where
  | null : Json
  | bool (flag : Bool) : Json
  | num (intVal : Int) : Json
  | str (text : String) : Json
  | arr (items : List Json) : Json
  | obj (pairs : List (String × Json)) : Json
deriving Repr, Inhabited

/-- Lookup in an object's field list (serde map `get`). -/
def mlookup : List (String × Json) → String → Option Json
  | [], _ => none
  | (k', v') :: rest, k => if k' = k then some v' else mlookup rest k

/-- Insert into an object's field list (serde map `insert` /
`entry(..).or_insert_with(..)` result): replaces the value in place when the
key is present, appends otherwise — preserving insertion order. -/
def minsert : List (String × Json) → String → Json → List (String × Json)
  | [], k, v => [(k, v)]
  | (k', v') :: rest, k, v =>
      if k' = k then (k, v) :: rest else (k', v') :: minsert rest k v

theorem mlookup_minsert_self (m : List (String × Json)) (k : String) (v : Json) :
    mlookup (minsert m k v) k = some v := by
  induction m with
  | nil => simp [minsert, mlookup]
  | cons hd tl ih =>
    obtain ⟨k', v'⟩ := hd
    by_cases h : k' = k
    · simp [minsert, h, mlookup]
    · simp [minsert, h, mlookup, ih]

theorem mlookup_minsert_ne (m : List (String × Json)) (k k' : String) (v : Json)
    (hne : k ≠ k') : mlookup (minsert m k v) k' = mlookup m k' := by
  induction m with
  | nil => simp [minsert, mlookup, hne]
  | cons hd tl ih =>
    obtain ⟨k0, v0⟩ := hd
    by_cases h : k0 = k
    · subst h
      simp [minsert, mlookup, hne]
    · by_cases h' : k0 = k'
      · simp [minsert, mlookup, h, h', Ne.symm hne]
      · simp [minsert, mlookup, h, h', ih]

/-! ## DotPath engine (src/dotpath.rs) -/

/-- Recursive core of `dotpath::set`'s walk over the already-split path
segments.  The Rust loop walks `parts` with a mutable cursor; here the walk
is structural recursion.  The `[]` case corresponds to the `unreachable!`
after the loop (split never yields an empty list); it is mapped to an error.
Error messages are abbreviated to the offending segment. -/
def setPath : Json → List String → Json → Except Error Json
  | _, [], _ => .error (.Dotpath "path was not resolved inside loop")
  | root, [p], v =>
      match root with
      | .obj m => .ok (.obj (minsert m p v))
      | _ => .error (.Dotpath ("expected object at segment " ++ p))
  | root, p :: part1 :: parts, v =>
      match root with
      | .obj m =>
          match setPath ((mlookup m p).getD (.obj [])) (part1 :: parts) v with
          | .ok child => .ok (.obj (minsert m p child))
          | .error e => .error e
      | _ => .error (.Dotpath ("expected object at segment " ++ p))

/-- Splits a character list at every occurrence of `sep` (Rust
`str::split(char)` semantics: `n` separators yield `n + 1` pieces, empty
pieces included). -/
def splitOnChar (sep : Char) : List Char → List (List Char)
  | [] => [[]]
  | c :: rest =>
    if c = sep then [] :: splitOnChar sep rest
    else
      match splitOnChar sep rest with
      | s :: ss => (c :: s) :: ss
      | [] => [[c]]

/-- `path.split('.').collect::<Vec<_>>()` in `dotpath::set`. -/
def splitDots (path : String) : List String :=
  (splitOnChar '.' path.data).map String.mk

/-- `dotpath::set(root, path, new_val)` (src/dotpath.rs lines 8–57). -/
def dotpathSet (root : Json) (path : String) (newVal : Json) : Except Error Json :=
  if path = "" then .error (.Dotpath "path must not be empty")
  else if (splitDots path).any (fun segment => segment = "") then
    .error (.Dotpath ("invalid path " ++ path ++ ": empty segment is not allowed"))
  else setPath root (splitDots path) newVal

/-- `dotpath::nullify(root, path)` = `set(root, path, Value::Null)`. -/
def nullify (root : Json) (path : String) : Except Error Json :=
  dotpathSet root path .null

/-- Reads the value at a segment list (used to state properties; follows
objects only, like the walk in `set`). -/
def lookupPath : Json → List String → Option Json
  | v, [] => some v
  | .obj m, p :: parts =>
      match mlookup m p with
      | some child => lookupPath child parts
      | none => none
  | _, _ :: _ => none

/-- Specification-side predicate: the walk described by the spec succeeds —
every intermediate node is a mapping or missing (auto-created), and the node
surrounding the final segment is a mapping.  Stated independently of
`setPath` so the two can be compared. -/
def pathObjOk : Json → List String → Bool
  | _, [] => false
  | root, [_] =>
      match root with
      | .obj _ => true
      | _ => false
  | root, p :: part1 :: parts =>
      match root with
      | .obj m => pathObjOk ((mlookup m p).getD (.obj [])) (part1 :: parts)
      | _ => false

/-! ### DotPath lemmas -/

/-- Two segment lists address disjoint subtrees: neither is a prefix of the
other. -/
def Divergent (l1 l2 : List String) : Prop := ¬ l1 <+: l2 ∧ ¬ l2 <+: l1

instance divergentDecidable (l1 l2 : List String) : Decidable (Divergent l1 l2) :=
  inferInstanceAs (Decidable (¬ l1 <+: l2 ∧ ¬ l2 <+: l1))

theorem setPath_ok_iff (root : Json) (parts : List String) (v : Json) :
    (∃ r, setPath root parts v = .ok r) ↔ pathObjOk root parts = true := by
  induction parts generalizing root with
  | nil => simp [setPath, pathObjOk]
  | cons p rest ih =>
    cases rest with
    | nil => cases root <;> simp [setPath, pathObjOk]
    | cons q rest' =>
      cases root with
      | obj m =>
        have h2 := ih ((mlookup m p).getD (.obj []))
        simp only [setPath, pathObjOk]
        cases h : setPath ((mlookup m p).getD (.obj [])) (q :: rest') v with
        | ok r => simpa [h] using h2
        | error e => simpa [h] using h2
      | null => simp [setPath, pathObjOk]
      | bool b => simp [setPath, pathObjOk]
      | num n => simp [setPath, pathObjOk]
      | str s => simp [setPath, pathObjOk]
      | arr xs => simp [setPath, pathObjOk]

theorem setPath_error_dotpath (root : Json) (parts : List String) (v : Json)
    (e : Error) (h : setPath root parts v = .error e) : ∃ msg, e = .Dotpath msg := by
  induction parts generalizing root with
  | nil =>
    simp only [setPath, Except.error.injEq] at h
    exact ⟨_, h.symm⟩
  | cons p rest ih =>
    cases rest with
    | nil =>
      cases root <;> simp only [setPath, Except.error.injEq, reduceCtorEq] at h <;>
        exact ⟨_, h.symm⟩
    | cons q rest' =>
      cases root with
      | obj m =>
        simp only [setPath] at h
        cases h' : setPath ((mlookup m p).getD (.obj [])) (q :: rest') v with
        | ok r => rw [h'] at h; exact absurd h (by simp)
        | error e' =>
          rw [h'] at h
          simp only [Except.error.injEq] at h
          subst h
          exact ih _ h'
      | null => simp only [setPath, Except.error.injEq] at h; exact ⟨_, h.symm⟩
      | bool b => simp only [setPath, Except.error.injEq] at h; exact ⟨_, h.symm⟩
      | num n => simp only [setPath, Except.error.injEq] at h; exact ⟨_, h.symm⟩
      | str s => simp only [setPath, Except.error.injEq] at h; exact ⟨_, h.symm⟩
      | arr xs => simp only [setPath, Except.error.injEq] at h; exact ⟨_, h.symm⟩

theorem setPath_lookupPath (root : Json) (parts : List String) (v r : Json)
    (h : setPath root parts v = .ok r) : lookupPath r parts = some v := by
  induction parts generalizing root r with
  | nil => simp [setPath] at h
  | cons p rest ih =>
    cases rest with
    | nil =>
      cases root <;> simp only [setPath, Except.ok.injEq, reduceCtorEq] at h
      subst h
      simp [lookupPath, mlookup_minsert_self]
    | cons q rest' =>
      cases root with
      | obj m =>
        simp only [setPath] at h
        cases h' : setPath ((mlookup m p).getD (.obj [])) (q :: rest') v with
        | ok child =>
          rw [h'] at h
          simp only [Except.ok.injEq] at h
          subst h
          simp [lookupPath, mlookup_minsert_self, ih _ _ h']
        | error e => rw [h'] at h; exact absurd h (by simp)
      | null => simp [setPath] at h
      | bool b => simp [setPath] at h
      | num n => simp [setPath] at h
      | str s => simp [setPath] at h
      | arr xs => simp [setPath] at h

theorem divergent_cons (p : String) (pt qt : List String)
    (h : Divergent (p :: pt) (p :: qt)) : Divergent pt qt := by
  obtain ⟨h1, h2⟩ := h
  refine ⟨fun hp => h1 ?_, fun hq => h2 ?_⟩
  · exact List.cons_prefix_cons.mpr ⟨rfl, hp⟩
  · exact List.cons_prefix_cons.mpr ⟨rfl, hq⟩

theorem divergent_ne_nil_left (l1 l2 : List String) (h : Divergent l1 l2) : l1 ≠ [] := by
  rintro rfl
  exact h.1 (List.nil_prefix)

theorem divergent_ne_nil_right (l1 l2 : List String) (h : Divergent l1 l2) : l2 ≠ [] := by
  rintro rfl
  exact h.2 (List.nil_prefix)

/-- Frame property: a successful `setPath` along `parts` leaves the value at
any diverging segment list unchanged. -/
theorem setPath_frame (root : Json) (parts : List String) (v r : Json)
    (qs : List String) (h : setPath root parts v = .ok r)
    (hdiv : Divergent parts qs) : lookupPath r qs = lookupPath root qs := by
  induction parts generalizing root r qs with
  | nil => simp [setPath] at h
  | cons p rest ih =>
    obtain ⟨q, qt, rfl⟩ : ∃ q qt, qs = q :: qt := by
      cases qs with
      | nil => exact absurd rfl (divergent_ne_nil_right _ _ hdiv)
      | cons q qt => exact ⟨q, qt, rfl⟩
    cases rest with
    | nil =>
      cases root <;> simp only [setPath, Except.ok.injEq, reduceCtorEq] at h
      subst h
      have hpq : p ≠ q := by
        rintro rfl
        exact hdiv.1 (List.cons_prefix_cons.mpr ⟨rfl, List.nil_prefix⟩)
      simp [lookupPath, mlookup_minsert_ne _ _ _ _ hpq]
    | cons q0 rest' =>
      cases root with
      | obj m =>
        simp only [setPath] at h
        cases h' : setPath ((mlookup m p).getD (.obj [])) (q0 :: rest') v with
        | ok child =>
          rw [h'] at h
          simp only [Except.ok.injEq] at h
          subst h
          by_cases hpq : p = q
          · subst hpq
            have hqt : qt ≠ [] := by
              rintro rfl
              exact hdiv.2 (List.cons_prefix_cons.mpr ⟨rfl, List.nil_prefix⟩)
            have hdiv' : Divergent (q0 :: rest') qt := divergent_cons _ _ _ hdiv
            have hrec := ih _ _ _ h' hdiv'
            cases hm : mlookup m p with
            | some c =>
              rw [hm] at hrec h'
              simp only [Option.getD] at hrec h'
              simp [lookupPath, mlookup_minsert_self, hm, hrec]
            | none =>
              rw [hm] at hrec h'
              simp only [Option.getD] at hrec h'
              obtain ⟨q1, qt', rfl⟩ : ∃ q1 qt', qt = q1 :: qt' := by
                cases qt with
                | nil => exact absurd rfl hqt
                | cons q1 qt' => exact ⟨q1, qt', rfl⟩
              simp only [lookupPath, mlookup_minsert_self, hm]
              rw [hrec]
              simp [lookupPath, mlookup]
          · simp [lookupPath, mlookup_minsert_ne _ _ _ _ hpq]
        | error e => rw [h'] at h; exact absurd h (by simp)
      | null => simp [setPath] at h
      | bool b => simp [setPath] at h
      | num n => simp [setPath] at h
      | str s => simp [setPath] at h
      | arr xs => simp [setPath] at h

/-- A successful `setPath` leaves its own path settable again. -/
theorem setPath_preserves_own (root : Json) (parts : List String) (v r : Json)
    (h : setPath root parts v = .ok r) : pathObjOk r parts = true := by
  induction parts generalizing root r with
  | nil => simp [setPath] at h
  | cons p rest ih =>
    cases rest with
    | nil =>
      cases root <;> simp only [setPath, Except.ok.injEq, reduceCtorEq] at h
      subst h
      simp [pathObjOk]
    | cons q rest' =>
      cases root with
      | obj m =>
        simp only [setPath] at h
        cases h' : setPath ((mlookup m p).getD (.obj [])) (q :: rest') v with
        | ok child =>
          rw [h'] at h
          simp only [Except.ok.injEq] at h
          subst h
          simp [pathObjOk, mlookup_minsert_self, ih _ _ h']
        | error e => rw [h'] at h; exact absurd h (by simp)
      | null => simp [setPath] at h
      | bool b => simp [setPath] at h
      | num n => simp [setPath] at h
      | str s => simp [setPath] at h
      | arr xs => simp [setPath] at h

/-- A successful `setPath` along a diverging segment list does not change
whether another path is settable. -/
theorem setPath_frame_objOk (root : Json) (qs : List String) (v r : Json)
    (parts : List String) (h : setPath root qs v = .ok r)
    (hdiv : Divergent parts qs) : pathObjOk r parts = pathObjOk root parts := by
  induction qs generalizing root r parts with
  | nil => simp [setPath] at h
  | cons q rest ih =>
    obtain ⟨p, pt, rfl⟩ : ∃ p pt, parts = p :: pt := by
      cases parts with
      | nil => exact absurd rfl (divergent_ne_nil_left _ _ hdiv)
      | cons p pt => exact ⟨p, pt, rfl⟩
    cases rest with
    | nil =>
      cases root <;> simp only [setPath, Except.ok.injEq, reduceCtorEq] at h
      subst h
      have hpq : q ≠ p := by
        rintro rfl
        exact hdiv.2 (List.cons_prefix_cons.mpr ⟨rfl, List.nil_prefix⟩)
      cases pt with
      | nil => simp [pathObjOk]
      | cons p1 pts => simp [pathObjOk, mlookup_minsert_ne _ _ _ _ hpq]
    | cons q0 rest' =>
      cases root with
      | obj m =>
        simp only [setPath] at h
        cases h' : setPath ((mlookup m q).getD (.obj [])) (q0 :: rest') v with
        | ok child =>
          rw [h'] at h
          simp only [Except.ok.injEq] at h
          subst h
          by_cases hpq : q = p
          · subst hpq
            have hpt : pt ≠ [] := by
              rintro rfl
              exact hdiv.1 (List.cons_prefix_cons.mpr ⟨rfl, List.nil_prefix⟩)
            obtain ⟨p1, pts, rfl⟩ : ∃ p1 pts, pt = p1 :: pts := by
              cases pt with
              | nil => exact absurd rfl hpt
              | cons p1 pts => exact ⟨p1, pts, rfl⟩
            have hdiv' : Divergent (p1 :: pts) (q0 :: rest') := by
              have := divergent_cons _ _ _ hdiv
              exact this
            have hrec := ih _ _ _ h' hdiv'
            simp only [pathObjOk, mlookup_minsert_self]
            exact hrec
          · cases pt with
            | nil => simp [pathObjOk]
            | cons p1 pts =>
              simp [pathObjOk, mlookup_minsert_ne _ _ _ _ hpq]
        | error e => rw [h'] at h; exact absurd h (by simp)
      | null => simp [setPath] at h
      | bool b => simp [setPath] at h
      | num n => simp [setPath] at h
      | str s => simp [setPath] at h
      | arr xs => simp [setPath] at h

/-! ## Plain-text codec

Modelled from the spec: the plain-text format codec ("structured value →
pretty plain-text serialization") is `serde_json`, an external collaborator
of this crate specified only at its interface boundary.  It is modelled here
as a concrete executable JSON printer and recursive-descent parser over the
`Json` value type (escaping is modelled for the two structural characters
`"` and `\`; numeric values are integers). -/

/-- One decimal digit to its character. -/
def digitChar : Nat → Char
  | 0 => '0' | 1 => '1' | 2 => '2' | 3 => '3' | 4 => '4'
  | 5 => '5' | 6 => '6' | 7 => '7' | 8 => '8' | 9 => '9'
  | _ => '?'

/-- Character back to its decimal digit value. -/
def charDigit (c : Char) : Nat := c.toNat - 48

/-- Base-10 rendering of a natural number. -/
def printNat (n : Nat) : List Char :=
  if n = 0 then ['0'] else (Nat.digits 10 n).reverse.map digitChar

/-- Base-10 rendering of an integer (minus sign for negatives). -/
def printInt (n : Int) : List Char :=
  if n < 0 then '-' :: printNat n.natAbs else printNat n.toNat

/-- JSON string escaping for the structural characters. -/
def escChar (c : Char) : List Char :=
  if c = '"' ∨ c = '\\' then ['\\', c] else [c]

/-- A JSON string literal: quote, escaped characters, quote. -/
def printStrChars (s : String) : List Char :=
  '"' :: (s.toList.flatMap escChar) ++ ['"']

mutual

/-- Prints a `Json` value in compact JSON syntax. -/
def printVal : Json → List Char
  | .null => ("null" : String).data
  | .bool true => ("true" : String).data
  | .bool false => ("false" : String).data
  | .num n => printInt n
  | .str s => printStrChars s
  | .arr xs => '[' :: printElems xs
  | .obj fs => '{' :: printMembers fs

/-- Prints array elements, closing with `]`. -/
def printElems : List Json → List Char
  | [] => [']']
  | [x] => printVal x ++ [']']
  | x :: y :: xs => printVal x ++ ',' :: printElems (y :: xs)

/-- Prints object members, closing with `}`. -/
def printMembers : List (String × Json) → List Char
  | [] => ['}']
  | [(k, x)] => printStrChars k ++ ':' :: printVal x ++ ['}']
  | (k, x) :: m :: fs => printStrChars k ++ ':' :: printVal x ++ ',' :: printMembers (m :: fs)

end

theorem nullData : ("null" : String).data = ['n', 'u', 'l', 'l'] := rfl

theorem trueData : ("true" : String).data = ['t', 'r', 'u', 'e'] := rfl

theorem falseData : ("false" : String).data = ['f', 'a', 'l', 's', 'e'] := rfl

/-- Parses the body of a string literal (after the opening quote), undoing
`escChar`; returns the content and the remaining input. -/
def parseStrAux : List Char → Option (List Char × List Char)
  | [] => none
  | c :: rest =>
    if c = '"' then some ([], rest)
    else if c = '\\' then
      match rest with
      | [] => none
      | c2 :: rest2 =>
        match parseStrAux rest2 with
        | some (s, r) => some (c2 :: s, r)
        | none => none
    else
      match parseStrAux rest with
      | some (s, r) => some (c :: s, r)
      | none => none

/-- Parses a run of decimal digits into a natural number. -/
def parseNat10 (cs : List Char) : Option (Nat × List Char) :=
  let ds := cs.takeWhile Char.isDigit
  if ds = [] then none
  else some (ds.foldl (fun a c => 10 * a + charDigit c) 0, cs.dropWhile Char.isDigit)

mutual

/-- Recursive-descent JSON value parser.  `fuel` bounds the nesting work;
every recursive call strictly decreases it. -/
def parseVal : Nat → List Char → Option (Json × List Char)
  | 0, _ => none
  | _ + 1, [] => none
  | fuel + 1, c :: rest =>
    if c = 'n' then
      match rest with
      | 'u' :: 'l' :: 'l' :: r => some (.null, r)
      | _ => none
    else if c = 't' then
      match rest with
      | 'r' :: 'u' :: 'e' :: r => some (.bool true, r)
      | _ => none
    else if c = 'f' then
      match rest with
      | 'a' :: 'l' :: 's' :: 'e' :: r => some (.bool false, r)
      | _ => none
    else if c = '"' then
      match parseStrAux rest with
      | some (s, r) => some (.str (String.mk s), r)
      | none => none
    else if c = '[' then
      match rest with
      | [] => none
      | c2 :: rest2 =>
        if c2 = ']' then some (.arr [], rest2)
        else
          match parseElems fuel (c2 :: rest2) with
          | some (xs, r) => some (.arr xs, r)
          | none => none
    else if c = '{' then
      match rest with
      | [] => none
      | c2 :: rest2 =>
        if c2 = '}' then some (.obj [], rest2)
        else
          match parseMembers fuel (c2 :: rest2) with
          | some (fs, r) => some (.obj fs, r)
          | none => none
    else if c = '-' then
      match parseNat10 rest with
      | some (n, r) => some (.num (-(n : Int)), r)
      | none => none
    else
      match parseNat10 (c :: rest) with
      | some (n, r) => some (.num (n : Int), r)
      | none => none

/-- Parses one-or-more array elements up to the closing `]`. -/
def parseElems : Nat → List Char → Option (List Json × List Char)
  | 0, _ => none
  | fuel + 1, cs =>
    match parseVal fuel cs with
    | some (v, ',' :: r) =>
      match parseElems fuel r with
      | some (vs, r') => some (v :: vs, r')
      | none => none
    | some (v, ']' :: r) => some ([v], r)
    | _ => none

/-- Parses one-or-more object members up to the closing `}`. -/
def parseMembers : Nat → List Char → Option (List (String × Json) × List Char)
  | 0, _ => none
  | fuel + 1, cs =>
    match cs with
    | '"' :: rest =>
      match parseStrAux rest with
      | some (k, ':' :: r2) =>
        match parseVal fuel r2 with
        | some (v, ',' :: r3) =>
          match parseMembers fuel r3 with
          | some (fs, r') => some ((String.mk k, v) :: fs, r')
          | none => none
        | some (v, '}' :: r3) => some ([(String.mk k, v)], r3)
        | _ => none
      | _ => none
    | _ => none

end

/-! ### Codec roundtrip lemmas: digits and strings -/

theorem digitChar_isDigit (d : Nat) (h : d < 10) : (digitChar d).isDigit = true := by
  interval_cases d <;> decide

theorem charDigit_digitChar (d : Nat) (h : d < 10) : charDigit (digitChar d) = d := by
  interval_cases d <;> decide

theorem printNat_ne_nil (n : Nat) : printNat n ≠ [] := by
  unfold printNat
  by_cases h : n = 0
  · simp [h]
  · simp only [h, if_false]
    intro hc
    have := (@Nat.digits_ne_nil_iff_ne_zero 10 n).mpr h
    simp only [List.map_eq_nil_iff, List.reverse_eq_nil_iff] at hc
    exact this hc

theorem printNat_all_digits (n : Nat) (c : Char) (hc : c ∈ printNat n) :
    c.isDigit = true := by
  unfold printNat at hc
  by_cases h : n = 0
  · simp [h] at hc
    subst hc
    decide
  · simp only [h, if_false, List.mem_map, List.mem_reverse] at hc
    obtain ⟨d, hd, rfl⟩ := hc
    exact digitChar_isDigit d (Nat.digits_lt_base (by norm_num) hd)

theorem foldl_digits (ds : List Nat) (h : ∀ d ∈ ds, d < 10) :
    ((ds.reverse.map digitChar).foldl (fun a c => 10 * a + charDigit c) 0)
      = Nat.ofDigits 10 ds := by
  induction ds with
  | nil => simp [Nat.ofDigits]
  | cons d ds' ih =>
    simp only [List.reverse_cons, List.map_append, List.map_cons, List.map_nil,
      List.foldl_append, List.foldl_cons, List.foldl_nil]
    rw [ih (fun x hx => h x (List.mem_cons_of_mem _ hx))]
    rw [charDigit_digitChar d (h d (List.mem_cons_self _ _))]
    rw [Nat.ofDigits_cons]
    omega

theorem foldl_printNat (n : Nat) :
    ((printNat n).foldl (fun a c => 10 * a + charDigit c) 0) = n := by
  unfold printNat
  by_cases h : n = 0
  · simp [h]
    decide
  · simp only [h, if_false]
    rw [foldl_digits _ (fun d hd => Nat.digits_lt_base (by norm_num) hd)]
    exact_mod_cast Nat.ofDigits_digits 10 n

/-- `rest` does not begin with a decimal digit (a value boundary for the
number grammar). -/
def NotDigitHead (rest : List Char) : Prop :=
  ∀ c, rest.head? = some c → c.isDigit = false

theorem takeWhile_append_of_all (l1 l2 : List Char) (h1 : ∀ c ∈ l1, c.isDigit = true)
    (h2 : NotDigitHead l2) :
    (l1 ++ l2).takeWhile Char.isDigit = l1 ∧ (l1 ++ l2).dropWhile Char.isDigit = l2 := by
  induction l1 with
  | nil =>
    simp only [List.nil_append]
    cases l2 with
    | nil => simp
    | cons c t =>
      have := h2 c rfl
      simp [List.takeWhile, List.dropWhile, this]
  | cons c t ih =>
    have hc := h1 c (List.mem_cons_self _ _)
    have := ih (fun x hx => h1 x (List.mem_cons_of_mem _ hx))
    simp [List.takeWhile, List.dropWhile, hc, this.1, this.2]

theorem parseNat10_printNat (n : Nat) (rest : List Char) (hrest : NotDigitHead rest) :
    parseNat10 (printNat n ++ rest) = some (n, rest) := by
  obtain ⟨htake, hdrop⟩ :=
    takeWhile_append_of_all (printNat n) rest (printNat_all_digits n) hrest
  unfold parseNat10
  simp only [htake, hdrop, printNat_ne_nil n, if_false]
  rw [foldl_printNat]

theorem parseStrAux_cons (c : Char) (rest : List Char) :
    parseStrAux (c :: rest) =
      if c = '"' then some ([], rest)
      else if c = '\\' then
        match rest with
        | [] => none
        | c2 :: rest2 =>
          match parseStrAux rest2 with
          | some (s, r) => some (c2 :: s, r)
          | none => none
      else
        match parseStrAux rest with
        | some (s, r) => some (c :: s, r)
        | none => none := by
  rw [parseStrAux.eq_def]

theorem parseStrAux_roundtrip (s : List Char) (rest : List Char) :
    parseStrAux (s.flatMap escChar ++ '"' :: rest) = some (s, rest) := by
  induction s with
  | nil => simp [parseStrAux_cons]
  | cons c s' ih =>
    by_cases h : c = '"' ∨ c = '\\'
    · have hesc : escChar c = ['\\', c] := by simp [escChar, h]
      simp only [List.flatMap_cons, hesc, List.cons_append, List.append_assoc]
      simp [parseStrAux_cons, ih]
    · have hesc : escChar c = [c] := by simp [escChar, h]
      push_neg at h
      simp only [List.flatMap_cons, hesc, List.cons_append, List.append_assoc]
      simp [parseStrAux_cons, h.1, h.2, ih]

/-! ### Fuel measure and induction principle for `Json` -/

mutual

/-- Fuel sufficient for `parseVal` to reconsume a printed value. -/
def fuelOf : Json → Nat
  | .arr xs => 1 + fuelOfElems xs
  | .obj fs => 1 + fuelOfMembers fs
  | _ => 1

/-- Fuel for `parseElems` over a printed element list. -/
def fuelOfElems : List Json → Nat
  | [] => 1
  | x :: xs => 1 + fuelOf x + fuelOfElems xs

/-- Fuel for `parseMembers` over a printed member list. -/
def fuelOfMembers : List (String × Json) → Nat
  | [] => 1
  | (_, x) :: fs => 1 + fuelOf x + fuelOfMembers fs

end

theorem fuelOf_pos (v : Json) : 1 ≤ fuelOf v := by
  cases v <;> simp [fuelOf]

/-- Structural induction over `Json` with member access for the nested
lists. -/
def jsonInd {P : Json → Prop}
    (hnull : P .null) (hbool : ∀ b, P (.bool b)) (hnum : ∀ n, P (.num n))
    (hstr : ∀ s, P (.str s))
    (harr : ∀ xs, (∀ x ∈ xs, P x) → P (.arr xs))
    (hobj : ∀ fs, (∀ kv ∈ fs, P kv.2) → P (.obj fs)) : ∀ v, P v
  | .null => hnull
  | .bool b => hbool b
  | .num n => hnum n
  | .str s => hstr s
  | .arr xs => harr xs (fun x hx => jsonInd hnull hbool hnum hstr harr hobj x)
  | .obj fs => hobj fs (fun kv hkv => jsonInd hnull hbool hnum hstr harr hobj kv.2)
termination_by v => sizeOf v
decreasing_by
  · have h1 := List.sizeOf_lt_of_mem hx
    simp only [Json.arr.sizeOf_spec]
    omega
  · have h1 := List.sizeOf_lt_of_mem hkv
    obtain ⟨k, x⟩ := kv
    simp only [Json.obj.sizeOf_spec, Prod.mk.sizeOf_spec]
    simp only [Prod.mk.sizeOf_spec] at h1
    omega

theorem stringMk_toList (s : String) : String.mk s.toList = s := by
  cases s
  rfl

theorem stringMk_data (s : String) : String.mk s.data = s := by
  cases s
  rfl

theorem isDigit_ne_delims (c : Char) (h : c.isDigit = true) :
    c ≠ 'n' ∧ c ≠ 't' ∧ c ≠ 'f' ∧ c ≠ '"' ∧ c ≠ '[' ∧ c ≠ '{' ∧ c ≠ '-' := by
  refine ⟨?_, ?_, ?_, ?_, ?_, ?_, ?_⟩ <;> (rintro rfl; revert h; decide)

theorem notDigitHead_cons (c : Char) (rest : List Char) (h : c.isDigit = false) :
    NotDigitHead (c :: rest) := by
  intro c' hc'
  simp only [List.head?_cons, Option.some.injEq] at hc'
  subst hc'
  exact h

/-- Every printed value starts with a character that is not a list or object
closer (needed to steer the parser's lookahead). -/
theorem printVal_head_ne (v : Json) :
    ∃ c t, printVal v = c :: t ∧ c ≠ ']' ∧ c ≠ '}' := by
  cases v with
  | null => exact ⟨'n', ['u', 'l', 'l'], by simp [printVal], by decide, by decide⟩
  | bool b =>
    cases b
    · exact ⟨'f', ['a', 'l', 's', 'e'], by simp [printVal], by decide, by decide⟩
    · exact ⟨'t', ['r', 'u', 'e'], by simp [printVal], by decide, by decide⟩
  | num n =>
    by_cases h : n < 0
    · exact ⟨'-', printNat n.natAbs, by simp [printVal, printInt, h], by decide, by decide⟩
    · obtain ⟨c, t, hct⟩ := List.exists_cons_of_ne_nil (printNat_ne_nil n.toNat)
      have hcd : c.isDigit = true :=
        printNat_all_digits n.toNat c (by rw [hct]; exact List.mem_cons_self _ _)
      refine ⟨c, t, by simp [printVal, printInt, h, hct], ?_, ?_⟩
      · rintro rfl; revert hcd; decide
      · rintro rfl; revert hcd; decide
  | str s =>
    exact ⟨'"', s.toList.flatMap escChar ++ ['"'], by simp [printVal, printStrChars],
      by decide, by decide⟩
  | arr xs => exact ⟨'[', printElems xs, by simp [printVal], by decide, by decide⟩
  | obj fs => exact ⟨'{', printMembers fs, by simp [printVal], by decide, by decide⟩

/-! ### Main printer/parser roundtrip -/

theorem parseElems_printElems (ys : List Json) :
    ys ≠ [] →
    (∀ y ∈ ys, ∀ fuel rest, fuelOf y ≤ fuel → NotDigitHead rest →
      parseVal fuel (printVal y ++ rest) = some (y, rest)) →
    ∀ fuel rest, fuelOfElems ys ≤ fuel →
      parseElems fuel (printElems ys ++ rest) = some (ys, rest) := by
  induction ys with
  | nil => intro h; exact absurd rfl h
  | cons x xs ih =>
    intro _ hP fuel rest hf
    have hx := hP x (List.mem_cons_self _ _)
    simp only [fuelOfElems] at hf
    obtain ⟨f, rfl⟩ : ∃ f, fuel = f + 1 := ⟨fuel - 1, by omega⟩
    cases xs with
    | nil =>
      have h1 : printElems [x] ++ rest = printVal x ++ (']' :: rest) := by
        simp [printElems]
      rw [h1]
      have hv := hx f (']' :: rest) (by simp [fuelOfElems] at hf; omega)
        (notDigitHead_cons _ _ (by decide))
      simp [parseElems, hv]
    | cons y xs' =>
      have h1 : printElems (x :: y :: xs') ++ rest
          = printVal x ++ (',' :: (printElems (y :: xs') ++ rest)) := by
        simp [printElems]
      rw [h1]
      have hv := hx f (',' :: (printElems (y :: xs') ++ rest))
        (by simp [fuelOfElems] at hf; omega) (notDigitHead_cons _ _ (by decide))
      have hrec := ih (by simp) (fun z hz => hP z (List.mem_cons_of_mem _ hz)) f rest
        (by simp [fuelOfElems] at hf ⊢; omega)
      simp [parseElems, hv, hrec]

theorem parseMembers_printMembers (fs : List (String × Json)) :
    fs ≠ [] →
    (∀ kv ∈ fs, ∀ fuel rest, fuelOf kv.2 ≤ fuel → NotDigitHead rest →
      parseVal fuel (printVal kv.2 ++ rest) = some (kv.2, rest)) →
    ∀ fuel rest, fuelOfMembers fs ≤ fuel →
      parseMembers fuel (printMembers fs ++ rest) = some (fs, rest) := by
  induction fs with
  | nil => intro h; exact absurd rfl h
  | cons kv fs' ih =>
    intro _ hP fuel rest hf
    obtain ⟨k, x⟩ := kv
    have hx : ∀ fuel rest, fuelOf x ≤ fuel → NotDigitHead rest →
        parseVal fuel (printVal x ++ rest) = some (x, rest) :=
      hP (k, x) (List.mem_cons_self _ _)
    simp only [fuelOfMembers] at hf
    obtain ⟨f, rfl⟩ : ∃ f, fuel = f + 1 := ⟨fuel - 1, by omega⟩
    cases fs' with
    | nil =>
      have h1 : printMembers [(k, x)] ++ rest
          = '"' :: (k.data.flatMap escChar ++ ('"' :: (':' :: (printVal x ++ ('}' :: rest))))) := by
        simp [printMembers, printStrChars, String.toList]
      rw [h1]
      have hstr := parseStrAux_roundtrip k.data (':' :: (printVal x ++ ('}' :: rest)))
      have hv := hx f ('}' :: rest) (by simp [fuelOfMembers] at hf; omega)
        (notDigitHead_cons _ _ (by decide))
      simp [parseMembers, hstr, hv, stringMk_data]
    | cons kv2 fs'' =>
      have h1 : printMembers ((k, x) :: kv2 :: fs'') ++ rest
          = '"' :: (k.data.flatMap escChar ++
              ('"' :: (':' :: (printVal x ++ (',' :: (printMembers (kv2 :: fs'') ++ rest)))))) := by
        simp [printMembers, printStrChars, String.toList]
      rw [h1]
      have hstr := parseStrAux_roundtrip k.data
        (':' :: (printVal x ++ (',' :: (printMembers (kv2 :: fs'') ++ rest))))
      have hv := hx f (',' :: (printMembers (kv2 :: fs'') ++ rest))
        (by simp [fuelOfMembers] at hf; omega) (notDigitHead_cons _ _ (by decide))
      have hrec := ih (by simp) (fun z hz => hP z (List.mem_cons_of_mem _ hz)) f rest
        (by simp [fuelOfMembers] at hf ⊢; omega)
      simp [parseMembers, hstr, hv, hrec, stringMk_data]

/-- Roundtrip: the parser reconsumes exactly what the printer produced. -/
theorem parseVal_printVal (v : Json) : ∀ fuel rest, fuelOf v ≤ fuel → NotDigitHead rest →
    parseVal fuel (printVal v ++ rest) = some (v, rest) := by
  induction v using jsonInd with
  | hnull =>
    intro fuel rest hf _
    obtain ⟨f, rfl⟩ : ∃ f, fuel = f + 1 := ⟨fuel - 1, by simp [fuelOf] at hf; omega⟩
    simp [printVal, parseVal]
  | hbool b =>
    intro fuel rest hf _
    obtain ⟨f, rfl⟩ : ∃ f, fuel = f + 1 := ⟨fuel - 1, by simp [fuelOf] at hf; omega⟩
    cases b <;> simp [printVal, parseVal]
  | hnum n =>
    intro fuel rest hf hrest
    obtain ⟨f, rfl⟩ : ∃ f, fuel = f + 1 := ⟨fuel - 1, by simp [fuelOf] at hf; omega⟩
    by_cases hneg : n < 0
    · have h1 : printVal (.num n) ++ rest = '-' :: (printNat n.natAbs ++ rest) := by
        simp [printVal, printInt, hneg]
      rw [h1]
      have hp := parseNat10_printNat n.natAbs rest hrest
      simp [parseVal, hp, -Int.natCast_natAbs]
      omega
    · have h0 : printVal (.num n) = printNat n.toNat := by
        simp [printVal, printInt, hneg]
      obtain ⟨c, t, hct⟩ := List.exists_cons_of_ne_nil (printNat_ne_nil n.toNat)
      have hcd : c.isDigit = true :=
        printNat_all_digits n.toNat c (by rw [hct]; exact List.mem_cons_self _ _)
      obtain ⟨h1, h2, h3, h4, h5, h6, h7⟩ := isDigit_ne_delims c hcd
      have hp := parseNat10_printNat n.toNat rest hrest
      rw [h0, hct]
      rw [hct] at hp
      simp only [List.cons_append] at hp ⊢
      simp [parseVal, h1, h2, h3, h4, h5, h6, h7, hp]
      omega
  | hstr s =>
    intro fuel rest hf _
    obtain ⟨f, rfl⟩ : ∃ f, fuel = f + 1 := ⟨fuel - 1, by simp [fuelOf] at hf; omega⟩
    have h1 : printVal (.str s) ++ rest
        = '"' :: (s.toList.flatMap escChar ++ ('"' :: rest)) := by
      simp [printVal, printStrChars]
    rw [h1]
    simp [parseVal, parseStrAux_roundtrip, stringMk_toList]
  | harr xs hIH =>
    intro fuel rest hf _
    simp only [fuelOf] at hf
    obtain ⟨f, rfl⟩ : ∃ f, fuel = f + 1 := ⟨fuel - 1, by omega⟩
    cases xs with
    | nil =>
      have h1 : printVal (.arr []) ++ rest = '[' :: ']' :: rest := by
        simp [printVal, printElems]
      rw [h1]
      simp [parseVal]
    | cons x xs' =>
      have h1 : printVal (.arr (x :: xs')) ++ rest
          = '[' :: (printElems (x :: xs') ++ rest) := by
        simp [printVal]
      rw [h1]
      obtain ⟨c2, t2, hct, hne1, _⟩ := printVal_head_ne x
      have helems := parseElems_printElems (x :: xs') (by simp) hIH f rest
        (by simp [fuelOfElems] at hf ⊢; omega)
      have h3 : ∃ t3, printElems (x :: xs') ++ rest = c2 :: t3 := by
        cases xs' with
        | nil =>
          refine ⟨t2 ++ (']' :: rest), ?_⟩
          simp [printElems, hct]
        | cons y ys =>
          refine ⟨t2 ++ (',' :: (printElems (y :: ys) ++ rest)), ?_⟩
          simp [printElems, hct]
      obtain ⟨t3, ht3⟩ := h3
      rw [ht3]
      rw [ht3] at helems
      simp [parseVal, hne1, helems]
  | hobj fs hIH =>
    intro fuel rest hf _
    simp only [fuelOf] at hf
    obtain ⟨f, rfl⟩ : ∃ f, fuel = f + 1 := ⟨fuel - 1, by omega⟩
    cases fs with
    | nil =>
      have h1 : printVal (.obj []) ++ rest = '{' :: '}' :: rest := by
        simp [printVal, printMembers]
      rw [h1]
      simp [parseVal]
    | cons kv fs' =>
      obtain ⟨k, x⟩ := kv
      have hmem := parseMembers_printMembers ((k, x) :: fs') (by simp) hIH f rest
        (by simp [fuelOfMembers] at hf ⊢; omega)
      have h3 : ∃ t3, printMembers ((k, x) :: fs') ++ rest = '"' :: t3 := by
        cases fs' with
        | nil =>
          exact ⟨k.toList.flatMap escChar ++ ['"'] ++ (':' :: printVal x ++ ['}']) ++ rest,
            by simp [printMembers, printStrChars]⟩
        | cons kv2 fs'' =>
          exact ⟨k.toList.flatMap escChar ++ ['"'] ++
            (':' :: printVal x ++ ',' :: printMembers (kv2 :: fs'')) ++ rest,
            by simp [printMembers, printStrChars]⟩
      obtain ⟨t3, ht3⟩ := h3
      have h1 : printVal (.obj ((k, x) :: fs')) ++ rest
          = '{' :: ('"' :: t3) := by
        simp only [printVal, List.cons_append]
        rw [ht3]
      rw [h1]
      rw [ht3] at hmem
      simp [parseVal, hmem]

theorem printVal_ne_nil (v : Json) : printVal v ≠ [] := by
  obtain ⟨c, t, h, _, _⟩ := printVal_head_ne v
  simp [h]

theorem fuelOfElems_le (xs : List Json)
    (h : ∀ x ∈ xs, fuelOf x ≤ 2 * (printVal x).length) :
    fuelOfElems xs ≤ 2 * (printElems xs).length := by
  induction xs with
  | nil => simp [fuelOfElems, printElems]
  | cons x xs ih =>
    have hx := h x (List.mem_cons_self _ _)
    cases xs with
    | nil =>
      simp only [fuelOfElems, printElems, List.length_append, List.length_cons,
        List.length_nil]
      omega
    | cons y ys =>
      have := ih (fun z hz => h z (List.mem_cons_of_mem _ hz))
      simp only [fuelOfElems, printElems, List.length_append, List.length_cons] at this ⊢
      omega

theorem fuelOfMembers_le (fs : List (String × Json))
    (h : ∀ kv ∈ fs, fuelOf kv.2 ≤ 2 * (printVal kv.2).length) :
    fuelOfMembers fs ≤ 2 * (printMembers fs).length := by
  induction fs with
  | nil => simp [fuelOfMembers, printMembers]
  | cons kv fs ih =>
    obtain ⟨k, x⟩ := kv
    have hx : fuelOf x ≤ 2 * (printVal x).length := h (k, x) (List.mem_cons_self _ _)
    cases fs with
    | nil =>
      simp only [fuelOfMembers, printMembers, List.length_append, List.length_cons,
        List.length_nil]
      omega
    | cons kv2 fs' =>
      have := ih (fun z hz => h z (List.mem_cons_of_mem _ hz))
      simp only [fuelOfMembers, printMembers, List.length_append, List.length_cons] at this ⊢
      omega

theorem fuelOf_le (v : Json) : fuelOf v ≤ 2 * (printVal v).length := by
  induction v using jsonInd with
  | hnull => simp [fuelOf, printVal]
  | hbool b => cases b <;> simp [fuelOf, printVal]
  | hnum n =>
    have := List.length_pos.mpr (printVal_ne_nil (.num n))
    simp only [fuelOf]
    omega
  | hstr s =>
    have := List.length_pos.mpr (printVal_ne_nil (.str s))
    simp only [fuelOf]
    omega
  | harr xs hIH =>
    have := fuelOfElems_le xs hIH
    simp only [fuelOf, printVal, List.length_cons]
    omega
  | hobj fs hIH =>
    have := fuelOfMembers_le fs hIH
    simp only [fuelOf, printVal, List.length_cons]
    omega

/-! ### Bytes, top-level parse entry points -/

/-- UTF-8 byte view of characters, abstracted one scalar per byte. -/
def charsToBytes (cs : List Char) : List Nat := cs.map Char.toNat

/-- Inverse of `charsToBytes`. -/
def bytesToChars (bs : List Nat) : List Char := bs.map Char.ofNat

theorem bytesToChars_charsToBytes (cs : List Char) :
    bytesToChars (charsToBytes cs) = cs := by
  simp [bytesToChars, charsToBytes, List.map_map, Function.comp_def]

/-- Whole-input JSON parse (`serde_json` rejects trailing input). -/
def jsonParseChars (cs : List Char) : Option Json :=
  match parseVal (2 * cs.length + 1) cs with
  | some (v, []) => some v
  | _ => none

/-- Models `serde_json::from_str` on a string payload. -/
def jsonFromStr (s : String) : Option Json := jsonParseChars s.data

/-- Encodes a value to bytes (models `serde_json::to_vec` /
`to_vec_pretty`; the model prints compactly — pretty-printing differs only
in inter-token whitespace). -/
def jsonEncodeBytes (v : Json) : List Nat := charsToBytes (printVal v)

/-- Decodes bytes to a value (models `serde_json::from_slice`). -/
def jsonDecodeBytes (bs : List Nat) : Option Json := jsonParseChars (bytesToChars bs)

theorem jsonParseChars_printVal (v : Json) : jsonParseChars (printVal v) = some v := by
  unfold jsonParseChars
  have hb : fuelOf v ≤ 2 * (printVal v).length + 1 := le_trans (fuelOf_le v) (by omega)
  have h := parseVal_printVal v (2 * (printVal v).length + 1) [] hb
    (by intro c hc; simp at hc)
  rw [List.append_nil] at h
  simp [h]

theorem jsonDecodeBytes_encode (v : Json) :
    jsonDecodeBytes (jsonEncodeBytes v) = some v := by
  unfold jsonDecodeBytes jsonEncodeBytes
  rw [bytesToChars_charsToBytes]
  exact jsonParseChars_printVal v

/-! ## Storage backends (src/storage.rs) -/

/-- Little-endian byte encoding of a natural number into `w` bytes (models
bincode's `u64` length prefix). -/
def natToLE : Nat → Nat → List Nat
  | 0, _ => []
  | w + 1, n => (n % 256) :: natToLE w (n / 256)

/-- Little-endian byte decoding. -/
def leToNat : List Nat → Nat
  | [] => 0
  | b :: bs => b + 256 * leToNat bs

theorem natToLE_length (w n : Nat) : (natToLE w n).length = w := by
  induction w generalizing n with
  | zero => simp [natToLE]
  | succ w ih => simp [natToLE, ih]

theorem leToNat_natToLE (w n : Nat) (h : n < 256 ^ w) :
    leToNat (natToLE w n) = n := by
  induction w generalizing n with
  | zero =>
    simp only [natToLE, leToNat]
    simp [Nat.pow_zero] at h
    omega
  | succ w ih =>
    simp only [natToLE, leToNat]
    rw [ih (n / 256) (by
      rw [Nat.pow_succ, Nat.mul_comm] at h
      exact Nat.div_lt_of_lt_mul h)]
    omega

/-- Modelled from the spec: `bincode::serialize` of a `Vec<u8>` — a 64-bit
little-endian length prefix followed by the raw bytes ("canonical byte
serialization, framed with a length-prefixed container"). -/
def bincodeSer (data : List Nat) : List Nat := natToLE 8 data.length ++ data

/-- Modelled from the spec: `bincode::deserialize` into a `Vec<u8>` — reads
the length prefix and that many bytes (trailing input is not rejected). -/
def bincodeDeser (bs : List Nat) : Option (List Nat) :=
  if bs.length < 8 then none
  else
    let len := leToNat (bs.take 8)
    let rest := bs.drop 8
    if rest.length < len then none else some (rest.take len)

theorem bincodeDeser_ser (data : List Nat) (h : data.length < 256 ^ 8) :
    bincodeDeser (bincodeSer data) = some data := by
  unfold bincodeDeser bincodeSer
  have hlen : (natToLE 8 data.length).length = 8 := natToLE_length 8 _
  have htake : (natToLE 8 data.length ++ data).take 8 = natToLE 8 data.length := by
    rw [← hlen]
    exact List.take_left _ _
  have hdrop : (natToLE 8 data.length ++ data).drop 8 = data := by
    rw [← hlen]
    exact List.drop_left _ _
  simp only [htake, hdrop, List.length_append, hlen]
  rw [leToNat_natToLE 8 data.length h]
  simp

/-- Abstract interface of the authenticated-encryption cipher
(XChaCha20-Poly1305), an external collaborator modelled at its interface
boundary: `encrypt key nonce plaintext` and `decrypt key nonce ciphertext`,
where decryption fails (`none`) on authentication mismatch. -/
structure AEAD where
  encrypt : List Nat → List Nat → List Nat → List Nat
  decrypt : List Nat → List Nat → List Nat → Option (List Nat)

/-- The cipher's functional-correctness contract: decrypting an encryption
under the same key and nonce recovers the plaintext. -/
def AEADCorrect (a : AEAD) : Prop :=
  ∀ key nonce msg, a.decrypt key nonce (a.encrypt key nonce msg) = some msg

/-- Modelled from the spec: `BinaryEncryptedBackend::new` derives the
32-byte cipher key by a one-way hash (SHA-256) of the passphrase; the hash
itself is external and is abstracted as an injective byte mapping of the
passphrase. -/
def deriveKey (pass : String) : List Nat := charsToBytes pass.data

/-- `JsonBackend::read` body after `std::fs::read`: `serde_json::from_slice`,
whose error converts to `Error::Json` via `#[from]`. -/
def jsonRead (bs : List Nat) : Except Error Json :=
  match jsonDecodeBytes bs with
  | some v => .ok v
  | none => .error (.Json "expected value")

/-- `JsonBackend::write` serialization step: `serde_json::to_vec_pretty`. -/
def jsonWriteBytes (v : Json) : List Nat := jsonEncodeBytes v

/-- `YamlBackend::read` body: parse then convert; all errors mapped to
`Error::Storage`.  Modelled from the spec: the YAML sibling of the
human-readable serialization is modelled by the same injective printer. -/
def yamlRead (bs : List Nat) : Except Error Json :=
  match jsonDecodeBytes bs with
  | some v => .ok v
  | none => .error (.Storage "yaml parse error")

/-- `YamlBackend::write` serialization step. -/
def yamlWriteBytes (v : Json) : List Nat := jsonEncodeBytes v

/-- `BinaryBackend::read` body: `bincode::deserialize` to the JSON bytes,
then `serde_json::from_slice`; both errors mapped to `Error::Storage`. -/
def binRead (bs : List Nat) : Except Error Json :=
  match bincodeDeser bs with
  | none => .error (.Storage "bincode deserialize error")
  | some jb =>
    match jsonDecodeBytes jb with
    | some v => .ok v
    | none => .error (.Storage "invalid json payload")

/-- `BinaryBackend::write` serialization step: JSON bytes framed by
bincode. -/
def binWriteBytes (v : Json) : List Nat := bincodeSer (jsonEncodeBytes v)

/-- `BinaryEncryptedBackend::read` body (src/storage.rs lines 175–197):
reject inputs shorter than the 24-byte nonce with the "missing nonce"
storage error; split nonce and ciphertext; authenticated decryption failure
yields the single generic storage error; then `serde_json::from_slice`. -/
def encRead (a : AEAD) (keyStr : String) (bs : List Nat) : Except Error Json :=
  if bs.length < 24 then
    .error (.Storage "encrypted file is too short (missing nonce)")
  else
    match a.decrypt (deriveKey keyStr) (bs.take 24) (bs.drop 24) with
    | none => .error (.Storage "decryption failed: wrong key or corrupted data")
    | some pt =>
      match jsonDecodeBytes pt with
      | some v => .ok v
      | none => .error (.Storage "invalid json payload")

/-- `BinaryEncryptedBackend::write` serialization step (lines 199–220):
fresh random `nonce` (supplied by the caller's entropy source) prepended to
the ciphertext. -/
def encWriteBytes (a : AEAD) (keyStr : String) (nonce : List Nat) (v : Json) : List Nat :=
  nonce ++ a.encrypt (deriveKey keyStr) nonce (jsonEncodeBytes v)

/-- Embedding of `StorageFormat` (src/models.rs). -/
inductive StorageFormat where
  | json
  | yaml
  | binary
deriving Repr, DecidableEq

/-- The concrete backend selected by `backend_for` (the `Box<dyn
StorageBackend>` trait objects become a closed enum). -/
inductive Backend where
  | json
  | yaml
  | binary
  | binaryEnc (key : String)
deriving Repr, DecidableEq

/-- `storage::backend_for(format, encryption_key)` (src/storage.rs lines
231–243). -/
def backend_for (format : StorageFormat) (encryptionKey : Option String) : Backend :=
  match format with
  | .json => .json
  | .yaml => .yaml
  | .binary =>
    match encryptionKey with
    | some key => .binaryEnc key
    | none => .binary

/-- Serialization step of `StorageBackend::write` for each backend (the
bytes handed to `write_file_safely`). -/
def backendWriteBytes (a : AEAD) (b : Backend) (nonce : List Nat) (v : Json) : List Nat :=
  match b with
  | .json => jsonWriteBytes v
  | .yaml => yamlWriteBytes v
  | .binary => binWriteBytes v
  | .binaryEnc key => encWriteBytes a key nonce v

/-- Deserialization step of `StorageBackend::read` for each backend (after
`std::fs::read`). -/
def backendReadBytes (a : AEAD) (b : Backend) (bs : List Nat) : Except Error Json :=
  match b with
  | .json => jsonRead bs
  | .yaml => yamlRead bs
  | .binary => binRead bs
  | .binaryEnc key => encRead a key bs

theorem jsonRead_write (v : Json) : jsonRead (jsonWriteBytes v) = .ok v := by
  simp [jsonRead, jsonWriteBytes, jsonDecodeBytes_encode]

theorem yamlRead_write (v : Json) : yamlRead (yamlWriteBytes v) = .ok v := by
  simp [yamlRead, yamlWriteBytes, jsonDecodeBytes_encode]

theorem binRead_write (v : Json) (h : (jsonEncodeBytes v).length < 256 ^ 8) :
    binRead (binWriteBytes v) = .ok v := by
  simp [binRead, binWriteBytes, bincodeDeser_ser _ h, jsonDecodeBytes_encode]

theorem encRead_write (a : AEAD) (ha : AEADCorrect a) (key : String)
    (nonce : List Nat) (hn : nonce.length = 24) (v : Json) :
    encRead a key (encWriteBytes a key nonce v) = .ok v := by
  unfold encRead encWriteBytes
  have htake : (nonce ++ a.encrypt (deriveKey key) nonce (jsonEncodeBytes v)).take 24
      = nonce := by
    rw [← hn]
    exact List.take_left _ _
  have hdrop : (nonce ++ a.encrypt (deriveKey key) nonce (jsonEncodeBytes v)).drop 24
      = a.encrypt (deriveKey key) nonce (jsonEncodeBytes v) := by
    rw [← hn]
    exact List.drop_left _ _
  have hlen : ¬ (nonce ++ a.encrypt (deriveKey key) nonce (jsonEncodeBytes v)).length < 24 := by
    simp [List.length_append, hn]
  simp only [hlen, if_false, htake, hdrop, ha (deriveKey key) nonce (jsonEncodeBytes v),
    jsonDecodeBytes_encode]

/-- The backend read/write roundtrip, uniformly over the selected backend. -/
theorem backendRead_write (a : AEAD) (ha : AEADCorrect a) (b : Backend)
    (nonce : List Nat) (hn : nonce.length = 24) (v : Json)
    (hlen : (jsonEncodeBytes v).length < 256 ^ 8) :
    backendReadBytes a b (backendWriteBytes a b nonce v) = .ok v := by
  cases b with
  | json => exact jsonRead_write v
  | yaml => exact yamlRead_write v
  | binary => exact binRead_write v hlen
  | binaryEnc key => exact encRead_write a ha key nonce hn v

/-! ## Atomic file writer (src/storage.rs, `write_file_safely`) -/

/-- Visible filesystem state around one `write_file_safely` call: the
destination path's content and the temporary sibling file's content
(`none` = absent). -/
structure FsState where
  dest : Option (List Nat)
  tmp : Option (List Nat)
deriving Repr, DecidableEq

/-- Failure injection for each fallible step of `write_file_safely`; `true`
means that syscall fails. -/
structure WriteSchedule where
  createDirFail : Bool
  tmpWriteFail : Bool
  renameFail : Bool
  removeFail : Bool
  renameRetryFail : Bool
deriving Repr, DecidableEq

/-- `storage::write_file_safely(path, bytes)` (src/storage.rs lines 15–61)
as a state machine over the destination slot, with failures injected by the
schedule.  The OS `rename` is atomic: the destination transitions from its
old content to the full new bytes in one step (never a byte mix).  The
temp-file name embeds a timestamp and random suffix; collisions are
abstracted away (`tmp` is a single fresh slot). -/
def write_file_safely (dest : Option (List Nat)) (bytes : List Nat)
    (s : WriteSchedule) : Except Error Unit × FsState :=
  if s.createDirFail then (.error (.Io "create_dir_all failed"), ⟨dest, none⟩)
  else if s.tmpWriteFail then (.error (.Io "tmp write failed"), ⟨dest, none⟩)
  else
    if s.renameFail then
      if dest.isSome then
        if s.removeFail then (.error (.Io "remove_file failed"), ⟨dest, some bytes⟩)
        else if s.renameRetryFail then
          (.error (.Io "rename retry failed"), ⟨none, some bytes⟩)
        else (.ok (), ⟨some bytes, none⟩)
      else (.error (.Io "rename failed"), ⟨dest, some bytes⟩)
    else (.ok (), ⟨some bytes, none⟩)

/-! ## Keyring store adapter (src/keyring_store.rs) and orchestrator data
model (src/models.rs) -/

/-- Embedding of `KeyringEntry` (src/models.rs). -/
structure KeyringEntry where
  id : String
  dotpath : String
  value : String
deriving Repr, DecidableEq

/-- Embedding of `KeyringOptions` (src/models.rs). -/
structure KeyringOptions where
  service : String
  account : String
deriving Repr, DecidableEq

/-- `keyring_store::build_user`: the composite user string
`{account}/{id}`. -/
def build_user (opts : KeyringOptions) (id : String) : String :=
  opts.account ++ "/" ++ id

/-- The OS-keyring addressing key `(service, user)`. -/
def keyringKey (opts : KeyringOptions) (id : String) : String × String :=
  (opts.service, build_user opts id)

/-- Secret-store contents: most recent binding first (`set_password`
overwrites, modelled by shadowing). -/
def klookup : List ((String × String) × String) → (String × String) → Option String
  | [], _ => none
  | (k', v) :: rest, k => if k' = k then some v else klookup rest k

/-- Removal of every binding of a key (models `delete_credential`). -/
def kremove : List ((String × String) × String) → (String × String) →
    List ((String × String) × String)
  | [], _ => []
  | (k', v) :: rest, k =>
    if k' = k then kremove rest k else (k', v) :: kremove rest k

/-- Embedding of `ConfiguratePayload` (src/models.rs).  `dir` is Tauri's
`BaseDirectory` integer; base-path resolution by the host framework is out
of scope, so the world models the one resolved destination. -/
structure ConfiguratePayload where
  name : String
  dir : Nat
  dirName : Option String
  path : Option String
  format : StorageFormat
  data : Option Json
  keyringEntries : Option (List KeyringEntry)
  keyringOptions : Option KeyringOptions
  withUnlock : Bool
  encryptionKey : Option String

/-- Embedding of `UnlockPayload` (src/models.rs). -/
structure UnlockPayload where
  data : Json
  keyringEntries : Option (List KeyringEntry)
  keyringOptions : Option KeyringOptions

/-- Observable side effects of one command, in order of occurrence. -/
inductive Event where
  | fread
  | fwrite (bytes : List Nat)
  | kset (key : String × String) (value : String)
  | kget (key : String × String)
  | kdel (key : String × String)
deriving Repr, DecidableEq

/-- The durable state outside the engine plus fault injection: the resolved
destination file slot, the keyring, the entropy for one encrypted write, and
which syscalls fail (`removeOther` injects a non-`NotFound` error into
`remove_file`; `kdelFail` lists keyring keys whose deletion fails). -/
structure World where
  file : Option (List Nat)
  keyring : List ((String × String) × String)
  nonce : List Nat
  removeOther : Bool
  kdelFail : List (String × String)

/-- `commands::validate_path_component` (src/commands.rs lines 19–51). -/
def validate_path_component (component : String) : Except Error Unit :=
  if component = "" then
    .error (.InvalidPayload "invalid path component: must not be empty")
  else if component.data.any (fun c =>
      c = '/' ∨ c = '\\' ∨ c = Char.ofNat 0 ∨ c = ':' ∨ c = '*' ∨ c = '?' ∨
      c = '"' ∨ c = '<' ∨ c = '>' ∨ c = '|') then
    .error (.InvalidPayload ("invalid path component " ++ component ++
      ": must not contain path separators or Windows-forbidden characters"))
  else if component.data.all (fun c => c = '.') then
    .error (.InvalidPayload ("invalid path component " ++ component ++
      ": dot-only names are not allowed"))
  else if component.data.getLast? = some ' ' ∨ component.data.getLast? = some '.' then
    .error (.InvalidPayload ("invalid path component " ++ component ++
      ": must not end with a space or dot"))
  else .ok ()

/-- `commands::validate_config_name`. -/
def validate_config_name (name : String) : Except Error Unit :=
  validate_path_component name

/-- Validates every slash-separated component in order, stopping at the
first error (the `for` loops of `validate_dir_name`/`validate_path_field`). -/
def validateComponents : List String → Except Error Unit
  | [] => .ok ()
  | c :: rest =>
    match validate_path_component c with
    | .error e => .error e
    | .ok _ => validateComponents rest

/-- `commands::validate_dir_name` (lines 65–73). -/
def validate_dir_name (dirName : String) : Except Error Unit :=
  if dirName = "" then .error (.InvalidPayload "dirName must not be empty")
  else validateComponents ((splitOnChar '/' dirName.data).map String.mk)

/-- `commands::validate_path_field` (lines 78–86). -/
def validate_path_field (path : String) : Except Error Unit :=
  if path = "" then .error (.InvalidPayload "path must not be empty")
  else validateComponents ((splitOnChar '/' path.data).map String.mk)

/-- `commands::resolve_path` (lines 116–160): the validation part.  The
base-directory resolution against the host framework's path table is out of
scope; the world carries the single resolved destination slot, so the
function returns unit on success. -/
def resolve_path (name : String) (dirName : Option String) (path : Option String) :
    Except Error Unit :=
  match validate_config_name name with
  | .error e => .error e
  | .ok _ =>
    match dirName with
    | some d =>
      (match validate_dir_name d with
       | .error e => .error e
       | .ok _ =>
         match path with
         | some p => validate_path_field p
         | none => .ok ())
    | none =>
      match path with
      | some p => validate_path_field p
      | none => .ok ()

/-- `commands::keyring_pair(op, entries, options)` (lines 198–215).  The
source quotes the operation name (`invalid 'create' payload: ...`); the
quote characters are elided here, the message otherwise verbatim. -/
def keyring_pair (op : String) (keyringEntries : Option (List KeyringEntry))
    (keyringOptions : Option KeyringOptions) :
    Except Error (Option (List KeyringEntry × KeyringOptions)) :=
  match keyringEntries, keyringOptions with
  | some entries, some opts => .ok (some (entries, opts))
  | none, none => .ok none
  | some _, none => .error (.InvalidPayload
      ("invalid " ++ op ++ " payload: keyringEntries provided without keyringOptions"))
  | none, some _ => .error (.InvalidPayload
      ("invalid " ++ op ++ " payload: keyringOptions provided without keyringEntries"))

/-- `serde_json::from_str(&secret).unwrap_or(Value::String(secret))` in
`apply_keyring_reads`. -/
def parseOrStr (secret : String) : Json :=
  match jsonFromStr secret with
  | some v => v
  | none => .str secret

/-- `commands::apply_keyring_writes` (lines 164–175): for each entry, store
its value in the keyring, then nullify its dotpath; the first dotpath error
aborts (after that entry's keyring write). -/
def apply_keyring_writes (w : World) (data : Json) (entries : List KeyringEntry)
    (opts : KeyringOptions) : Except Error Json × World × List Event :=
  match entries with
  | [] => (.ok data, w, [])
  | e :: rest =>
    let key := keyringKey opts e.id
    let w1 := { w with keyring := (key, e.value) :: w.keyring }
    match nullify data e.dotpath with
    | .error err => (.error err, w1, [.kset key e.value])
    | .ok d =>
      let res := apply_keyring_writes w1 d rest opts
      (res.1, res.2.1, .kset key e.value :: res.2.2)

/-- `commands::apply_keyring_reads` (lines 179–191): for each entry, fetch
the secret (a missing entry is a keyring error), parse-or-string it, and set
it at the entry's dotpath. -/
def apply_keyring_reads (w : World) (data : Json) (entries : List KeyringEntry)
    (opts : KeyringOptions) : Except Error Json × World × List Event :=
  match entries with
  | [] => (.ok data, w, [])
  | e :: rest =>
    let key := keyringKey opts e.id
    match klookup w.keyring key with
    | none => (.error (.Keyring "no entry"), w, [.kget key])
    | some secret =>
      match dotpathSet data e.dotpath (parseOrStr secret) with
      | .error err => (.error err, w, [.kget key])
      | .ok d =>
        let res := apply_keyring_reads w d rest opts
        (res.1, res.2.1, .kget key :: res.2.2)

/-! ## The five commands (src/commands.rs) -/

/-- `commands::create` (lines 221–244).  The `backend.write` byte-level
durability is delegated to `write_file_safely` (modelled separately); at
this level a completed write atomically replaces the file slot, per that
function's contract. -/
def createCmd (a : AEAD) (w : World) (p : ConfiguratePayload) :
    Except Error Json × World × List Event :=
  let backend := backend_for p.format p.encryptionKey
  match resolve_path p.name p.dirName p.path with
  | .error e => (.error e, w, [])
  | .ok _ =>
    let data := p.data.getD (.obj [])
    let unlocked : Option Json := if p.withUnlock then some data else none
    match keyring_pair "create" p.keyringEntries p.keyringOptions with
    | .error e => (.error e, w, [])
    | .ok none =>
      let bytes := backendWriteBytes a backend w.nonce data
      (.ok (unlocked.getD data), { w with file := some bytes }, [.fwrite bytes])
    | .ok (some (entries, opts)) =>
      match apply_keyring_writes w data entries opts with
      | (.error e, w1, evs) => (.error e, w1, evs)
      | (.ok d, w1, evs) =>
        let bytes := backendWriteBytes a backend w.nonce d
        (.ok (unlocked.getD d), { w1 with file := some bytes }, evs ++ [.fwrite bytes])

/-- `commands::load` (lines 250–266): read and decode the file, then — only
when `with_unlock` is set — check the keyring pairing and inline the
secrets. -/
def loadCmd (a : AEAD) (w : World) (p : ConfiguratePayload) :
    Except Error Json × World × List Event :=
  let backend := backend_for p.format p.encryptionKey
  match resolve_path p.name p.dirName p.path with
  | .error e => (.error e, w, [])
  | .ok _ =>
    match w.file with
    | none => (.error (.Io "file not found"), w, [.fread])
    | some bytes =>
      match backendReadBytes a backend bytes with
      | .error e => (.error e, w, [.fread])
      | .ok data =>
        if p.withUnlock then
          match keyring_pair "load" p.keyringEntries p.keyringOptions with
          | .error e => (.error e, w, [.fread])
          | .ok none => (.ok data, w, [.fread])
          | .ok (some (entries, opts)) =>
            let res := apply_keyring_reads w data entries opts
            (res.1, res.2.1, .fread :: res.2.2)
        else (.ok data, w, [.fread])

/-- `commands::save` (lines 273–295): textually the create flow with the
`"save"` operation name. -/
def saveCmd (a : AEAD) (w : World) (p : ConfiguratePayload) :
    Except Error Json × World × List Event :=
  let backend := backend_for p.format p.encryptionKey
  match resolve_path p.name p.dirName p.path with
  | .error e => (.error e, w, [])
  | .ok _ =>
    let data := p.data.getD (.obj [])
    let unlocked : Option Json := if p.withUnlock then some data else none
    match keyring_pair "save" p.keyringEntries p.keyringOptions with
    | .error e => (.error e, w, [])
    | .ok none =>
      let bytes := backendWriteBytes a backend w.nonce data
      (.ok (unlocked.getD data), { w with file := some bytes }, [.fwrite bytes])
    | .ok (some (entries, opts)) =>
      match apply_keyring_writes w data entries opts with
      | (.error e, w1, evs) => (.error e, w1, evs)
      | (.ok d, w1, evs) =>
        let bytes := backendWriteBytes a backend w.nonce d
        (.ok (unlocked.getD d), { w1 with file := some bytes }, evs ++ [.fwrite bytes])

/-- The best-effort keyring cleanup loop of `commands::delete`: every
entry is attempted (`let _ = keyring_store::delete(..)` discards each
result); an injected per-key failure leaves that binding in place but does
not stop the loop. -/
def kdelAll (w : World) (entries : List KeyringEntry) (opts : KeyringOptions) :
    World × List Event :=
  match entries with
  | [] => (w, [])
  | e :: rest =>
    let key := keyringKey opts e.id
    let w1 := if key ∈ w.kdelFail then w
      else { w with keyring := kremove w.keyring key }
    let res := kdelAll w1 rest opts
    (res.1, .kdel key :: res.2)

/-- `commands::delete` (lines 305–328): best-effort keyring cleanup, then
remove the file treating `NotFound` as success; any other removal error
propagates. -/
def deleteCmd (w : World) (p : ConfiguratePayload) :
    Except Error Unit × World × List Event :=
  match resolve_path p.name p.dirName p.path with
  | .error e => (.error e, w, [])
  | .ok _ =>
    match keyring_pair "delete" p.keyringEntries p.keyringOptions with
    | .error e => (.error e, w, [])
    | .ok pairOpt =>
      let step : World × List Event :=
        match pairOpt with
        | none => (w, [])
        | some (entries, opts) => kdelAll w entries opts
      let w1 := step.1
      let evs := step.2
      if w1.removeOther then (.error (.Io "remove_file failed"), w1, evs)
      else
        match w1.file with
        | none => (.ok (), w1, evs)
        | some _ => (.ok (), { w1 with file := none }, evs)

/-- `commands::unlock` (lines 338–344): reinflates an already-loaded tree
with no filesystem access. -/
def unlockCmd (w : World) (p : UnlockPayload) :
    Except Error Json × World × List Event :=
  match keyring_pair "unlock" p.keyringEntries p.keyringOptions with
  | .error e => (.error e, w, [])
  | .ok none => (.ok p.data, w, [])
  | .ok (some (entries, opts)) => apply_keyring_reads w p.data entries opts

/-! ## Claim theorems -/

/-- A concrete cipher satisfying the AEAD interface, used to instantiate
theorems at closed inputs: a one-byte tag prepended to the message. -/
def toyAEAD : AEAD where
  encrypt := fun key nonce msg => ((key.sum + nonce.sum) % 256) :: msg
  decrypt := fun key nonce ct =>
    match ct with
    | [] => none
    | t :: msg => if t = (key.sum + nonce.sum) % 256 then some msg else none

theorem toyAEAD_correct : AEADCorrect toyAEAD := by
  intro key nonce msg
  simp [toyAEAD]

/-- C8: backend selection is a pure function of the format and passphrase
presence — binary with a passphrase yields the authenticated-encryption
backend, binary without one yields the plain binary backend. -/
theorem C8_backend_selection :
    (∀ key : String, backend_for .binary (some key) = .binaryEnc key)
    ∧ backend_for .binary none = .binary :=
  ⟨fun _ => rfl, rfl⟩

/-- C4: the encrypted-binary decoder rejects inputs shorter than 24 bytes
with the "missing nonce" storage error, and any input of at least 24 bytes
whose authenticated decryption fails yields the one generic storage error
that does not distinguish a wrong key from tampering. -/
theorem C4_encrypted_decoder_errors (a : AEAD) (keyStr : String) (bs : List Nat) :
    (bs.length < 24 →
      encRead a keyStr bs = .error (.Storage "encrypted file is too short (missing nonce)"))
    ∧ (24 ≤ bs.length →
      a.decrypt (deriveKey keyStr) (bs.take 24) (bs.drop 24) = none →
      encRead a keyStr bs = .error (.Storage "decryption failed: wrong key or corrupted data")) := by
  constructor
  · intro h
    simp [encRead, h]
  · intro h hdec
    have h' : ¬ bs.length < 24 := by omega
    simp [encRead, h', hdec]

theorem C4_witness :
    encRead toyAEAD "k" [] = .error (.Storage "encrypted file is too short (missing nonce)")
    ∧ encRead toyAEAD "k" (List.replicate 24 0)
        = .error (.Storage "decryption failed: wrong key or corrupted data") :=
  ⟨(C4_encrypted_decoder_errors toyAEAD "k" []).1 (by decide),
   (C4_encrypted_decoder_errors toyAEAD "k" (List.replicate 24 0)).2 (by decide) (by decide)⟩

/-- C1 counterexample: with a prior complete content `[1]` at the
destination, the schedule "first rename fails, destination delete succeeds,
retry rename fails" leaves the destination ABSENT (the prior content is
gone), refuting "under no failure of any step is an absent destination
visible when a prior complete content existed".  The new bytes survive only
in the preserved temporary file. -/
theorem C1_counterexample :
    write_file_safely (some [1]) [2]
      ⟨false, false, true, false, true⟩
      = (.error (.Io "rename retry failed"), ⟨none, some [2]⟩)
    ∧ (some [1] : Option (List Nat)) ≠ none := by
  constructor
  · rfl
  · simp

/-- C1 amended: `write_file_safely` leaves the destination either fully
containing the new bytes or at its prior complete content — except on the
one path where the first rename fails with the destination present, the
destination delete succeeds, and the retry rename also fails: there the
destination is absent, the call reports the error, and the temporary file
is preserved holding the complete new bytes. -/
theorem C1_amended (dest : Option (List Nat)) (bytes : List Nat) (s : WriteSchedule) :
    (write_file_safely dest bytes s).2.dest = some bytes
    ∨ (write_file_safely dest bytes s).2.dest = dest
    ∨ ((write_file_safely dest bytes s).2.dest = none
        ∧ s.renameFail = true ∧ dest.isSome = true ∧ s.removeFail = false
        ∧ s.renameRetryFail = true
        ∧ (write_file_safely dest bytes s).1 = .error (.Io "rename retry failed")
        ∧ (write_file_safely dest bytes s).2.tmp = some bytes) := by
  rcases s with ⟨c, t, r, rm, rr⟩
  cases c <;> cases t <;> cases r <;> cases rm <;> cases rr <;> cases dest <;>
    simp [write_file_safely]

/-- C5: `set(tree, path, value)` fails with a DotPath error exactly when the
path is empty, a dot-separated segment is empty, or the walk meets an
existing non-mapping node; otherwise it succeeds and the written tree holds
`value` at the path (missing intermediates having been created as
mappings). -/
theorem C5_dotpath_set (root : Json) (path : String) (v : Json) :
    ((∃ msg, dotpathSet root path v = .error (.Dotpath msg)) ↔
      (path = "" ∨ (splitDots path).any (fun segment => segment = "") = true
        ∨ pathObjOk root (splitDots path) = false))
    ∧ (∀ r, dotpathSet root path v = .ok r →
        lookupPath r (splitDots path) = some v)
    ∧ (∀ e, dotpathSet root path v = .error e → ∃ msg, e = .Dotpath msg) := by
  refine ⟨?_, ?_, ?_⟩
  · by_cases h0 : path = ""
    · simp [dotpathSet, h0]
    · by_cases h1 : (splitDots path).any (fun segment => segment = "") = true
      · simp [dotpathSet, h0, h1]
      · simp only [dotpathSet, h0, if_false, h1]
        cases hsp : setPath root (splitDots path) v with
        | ok r =>
          have hok : pathObjOk root (splitDots path) = true :=
            (setPath_ok_iff root _ v).mp ⟨r, hsp⟩
          simp [hsp, h0, h1, hok]
        | error e =>
          obtain ⟨msg, rfl⟩ := setPath_error_dotpath _ _ _ _ hsp
          have hnok : pathObjOk root (splitDots path) = false := by
            rcases h : pathObjOk root (splitDots path) with _ | _
            · rfl
            · obtain ⟨r, hr⟩ := (setPath_ok_iff root _ v).mpr h
              rw [hr] at hsp
              exact absurd hsp (by simp)
          simp [hsp, hnok]
  · intro r hr
    unfold dotpathSet at hr
    split_ifs at hr with h0 h1
    exact setPath_lookupPath root _ v r hr
  · intro e he
    unfold dotpathSet at he
    split_ifs at he with h0 h1
    · simp only [Except.error.injEq] at he
      exact ⟨_, he.symm⟩
    · simp only [Except.error.injEq] at he
      exact ⟨_, he.symm⟩
    · exact setPath_error_dotpath _ _ _ _ he

theorem C5_witness :
    lookupPath (Json.obj [("a", Json.obj [("b", Json.null)])]) (splitDots "a.b")
      = some Json.null :=
  (C5_dotpath_set (Json.obj []) "a.b" Json.null).2.1
    (Json.obj [("a", Json.obj [("b", Json.null)])]) (by rfl)

/-- C9: a successful `set` modifies only the nodes along its path — the
value at every diverging segment list (every sibling at every level) is
unchanged. -/
theorem C9_set_frame (root : Json) (path : String) (v r : Json) (qs : List String)
    (h : dotpathSet root path v = .ok r)
    (hdiv : Divergent (splitDots path) qs) :
    lookupPath r qs = lookupPath root qs := by
  unfold dotpathSet at h
  split_ifs at h with h0 h1
  exact setPath_frame root _ v r qs h hdiv

theorem C9_witness :
    lookupPath (Json.obj [("sib", Json.num 1), ("a", Json.obj [("b", Json.str "x")])]) ["sib"]
      = lookupPath (Json.obj [("sib", Json.num 1)]) ["sib"] :=
  C9_set_frame (Json.obj [("sib", Json.num 1)]) "a.b" (Json.str "x")
    (Json.obj [("sib", Json.num 1), ("a", Json.obj [("b", Json.str "x")])]) ["sib"]
    (by rfl) (by decide)

/-- C10: a passphrase supplied with a non-binary format is silently
accepted — backend selection ignores it, every command behaves exactly as
without it, and the file is written and read back as unencrypted plain
text. -/
theorem C10_passphrase_ignored_nonbinary :
    (∀ key : String, backend_for .json (some key) = .json
      ∧ backend_for .yaml (some key) = .yaml)
    ∧ (∀ (a : AEAD) (w : World) (p : ConfiguratePayload) (key : String),
        p.format = .json ∨ p.format = .yaml →
        createCmd a w { p with encryptionKey := some key }
          = createCmd a w { p with encryptionKey := none }
        ∧ loadCmd a w { p with encryptionKey := some key }
          = loadCmd a w { p with encryptionKey := none }
        ∧ saveCmd a w { p with encryptionKey := some key }
          = saveCmd a w { p with encryptionKey := none })
    ∧ (∀ (a : AEAD) (w : World) (key name : String) (dir : Nat) (d : Json),
        validate_path_component name = .ok () →
        createCmd a w ⟨name, dir, none, none, .json, some d, none, none, false, some key⟩
          = (.ok d, { w with file := some (jsonWriteBytes d) }, [.fwrite (jsonWriteBytes d)])
        ∧ loadCmd a { w with file := some (jsonWriteBytes d) }
            ⟨name, dir, none, none, .json, some d, none, none, false, some key⟩
          = (.ok d, { w with file := some (jsonWriteBytes d) }, [.fread])) := by
  refine ⟨fun _ => ⟨rfl, rfl⟩, ?_, ?_⟩
  · intro a w p key hfmt
    rcases hfmt with h | h <;>
      exact ⟨by simp [createCmd, backend_for, h],
        by simp [loadCmd, backend_for, h],
        by simp [saveCmd, backend_for, h]⟩
  · intro a w key name dir d hname
    constructor
    · simp [createCmd, resolve_path, validate_config_name, hname, keyring_pair,
        backend_for, backendWriteBytes]
    · simp [loadCmd, resolve_path, validate_config_name, hname, keyring_pair,
        backend_for, backendReadBytes, jsonRead_write]

theorem C10_witness :
    createCmd toyAEAD ⟨none, [], [], false, []⟩
        ⟨"app.json", 0, none, none, .json, some (Json.obj []), none, none, false, some "pw"⟩
      = (.ok (Json.obj []),
          { file := some (jsonWriteBytes (Json.obj [])), keyring := [], nonce := [],
            removeOther := false, kdelFail := [] },
          [.fwrite (jsonWriteBytes (Json.obj []))]) :=
  ((C10_passphrase_ignored_nonbinary).2.2 toyAEAD ⟨none, [], [], false, []⟩ "pw" "app.json" 0
    (Json.obj []) (by rfl)).1

/-! ### C7: delete is best-effort on the keyring and tolerant of a missing
file -/

theorem kdelAll_events (entries : List KeyringEntry) (opts : KeyringOptions) :
    ∀ w : World, (kdelAll w entries opts).2
      = entries.map (fun e => Event.kdel (keyringKey opts e.id)) := by
  induction entries with
  | nil => intro w; simp [kdelAll]
  | cons e rest ih => intro w; simp [kdelAll, ih]

theorem kdelAll_preserves (entries : List KeyringEntry) (opts : KeyringOptions) :
    ∀ w : World, (kdelAll w entries opts).1.file = w.file
      ∧ (kdelAll w entries opts).1.removeOther = w.removeOther := by
  induction entries with
  | nil => intro w; simp [kdelAll]
  | cons e rest ih =>
    intro w
    simp only [kdelAll]
    by_cases h : keyringKey opts e.id ∈ w.kdelFail
    · simpa [h] using ih w
    · simpa [h] using ih { w with keyring := kremove w.keyring (keyringKey opts e.id) }

/-- C7: delete attempts the secret-store deletion of every descriptor in
order, regardless of per-descriptor failures; then it removes the file,
treating an absent file as success and propagating any other filesystem
error. -/
theorem C7_delete_best_effort (w : World) (p : ConfiguratePayload)
    (entries : List KeyringEntry) (opts : KeyringOptions)
    (hres : resolve_path p.name p.dirName p.path = .ok ())
    (hent : p.keyringEntries = some entries) (hopt : p.keyringOptions = some opts) :
    (deleteCmd w p).2.2 = entries.map (fun e => Event.kdel (keyringKey opts e.id))
    ∧ (w.removeOther = false → w.file = none →
        (deleteCmd w p).1 = .ok () ∧ (deleteCmd w p).2.1.file = none)
    ∧ (w.removeOther = false → ∀ bs, w.file = some bs →
        (deleteCmd w p).1 = .ok () ∧ (deleteCmd w p).2.1.file = none)
    ∧ (w.removeOther = true → (deleteCmd w p).1 = .error (.Io "remove_file failed")) := by
  have hpair : keyring_pair "delete" p.keyringEntries p.keyringOptions
      = .ok (some (entries, opts)) := by
    rw [hent, hopt]; rfl
  have hfile := (kdelAll_preserves entries opts w).1
  have hro := (kdelAll_preserves entries opts w).2
  have hev := kdelAll_events entries opts w
  refine ⟨?_, ?_, ?_, ?_⟩
  · simp only [deleteCmd, hres, hpair]
    rcases hx : (kdelAll w entries opts).1.removeOther with _ | _ <;>
      rcases hy : (kdelAll w entries opts).1.file with _ | bs <;>
        simp [hx, hy, hev]
  · intro h1 h2
    simp only [deleteCmd, hres, hpair]
    simp [hro, h1, hfile, h2]
  · intro h1 bs h2
    simp only [deleteCmd, hres, hpair]
    simp [hro, h1, hfile, h2]
  · intro h1
    simp only [deleteCmd, hres, hpair]
    simp [hro, h1]

theorem C7_witness :
    (deleteCmd
        ⟨some [7], [(("s", "acc/a"), "v"), (("s", "acc/b"), "v2")], [], false,
          [("s", "acc/a")]⟩
        ⟨"c.json", 0, none, none, .json,
          none, some [⟨"a", "p", "v"⟩, ⟨"b", "q", "v2"⟩], some ⟨"s", "acc"⟩, false, none⟩).2.2
      = [Event.kdel ("s", "acc/a"), Event.kdel ("s", "acc/b")]
    ∧ (deleteCmd
        ⟨some [7], [(("s", "acc/a"), "v"), (("s", "acc/b"), "v2")], [], false,
          [("s", "acc/a")]⟩
        ⟨"c.json", 0, none, none, .json,
          none, some [⟨"a", "p", "v"⟩, ⟨"b", "q", "v2"⟩], some ⟨"s", "acc"⟩, false, none⟩).1
      = .ok () := by
  have h := C7_delete_best_effort
    ⟨some [7], [(("s", "acc/a"), "v"), (("s", "acc/b"), "v2")], [], false, [("s", "acc/a")]⟩
    ⟨"c.json", 0, none, none, .json,
      none, some [⟨"a", "p", "v"⟩, ⟨"b", "q", "v2"⟩], some ⟨"s", "acc"⟩, false, none⟩
    [⟨"a", "p", "v"⟩, ⟨"b", "q", "v2"⟩] ⟨"s", "acc"⟩ (by rfl) (by rfl) (by rfl)
  exact ⟨h.1, (h.2.2.1 rfl [7] rfl).1⟩

/-! ### C2: descriptor/options pairing validation -/

/-- One side of the keyring pairing supplied without the other. -/
def KeyringMismatch (ke : Option (List KeyringEntry)) (ko : Option KeyringOptions) : Prop :=
  (∃ es, ke = some es ∧ ko = none) ∨ (ke = none ∧ ∃ o, ko = some o)

theorem keyring_pair_mismatch (op : String) (ke : Option (List KeyringEntry))
    (ko : Option KeyringOptions) (h : KeyringMismatch ke ko) :
    ∃ m, keyring_pair op ke ko = .error (.InvalidPayload m) := by
  rcases h with ⟨es, rfl, rfl⟩ | ⟨rfl, o, rfl⟩
  · exact ⟨_, rfl⟩
  · exact ⟨_, rfl⟩

/-- C2 counterexample: `load` with `withUnlock = false`, secret descriptors
supplied without secret-store options, a valid name, and a decodable file
present — the command succeeds (no InvalidPayload is raised at all) and the
file IS read, refuting "checked before any filesystem I/O ... for every
operation, yielding an InvalidPayload error". -/
theorem C2_counterexample :
    loadCmd toyAEAD
        ⟨some (jsonWriteBytes (Json.obj [])), [], [], false, []⟩
        ⟨"app.json", 0, none, none, .json, none, some [], none, false, none⟩
      = (.ok (Json.obj []),
          ⟨some (jsonWriteBytes (Json.obj [])), [], [], false, []⟩, [.fread])
    ∧ (∀ m, (loadCmd toyAEAD
        ⟨some (jsonWriteBytes (Json.obj [])), [], [], false, []⟩
        ⟨"app.json", 0, none, none, .json, none, some [], none, false, none⟩).1
          ≠ .error (.InvalidPayload m))
    ∧ Event.fread ∈ (loadCmd toyAEAD
        ⟨some (jsonWriteBytes (Json.obj [])), [], [], false, []⟩
        ⟨"app.json", 0, none, none, .json, none, some [], none, false, none⟩).2.2 := by
  refine ⟨rfl, ?_, ?_⟩
  · intro m
    intro hcontra
    exact absurd hcontra (by rw [show (loadCmd toyAEAD
        ⟨some (jsonWriteBytes (Json.obj [])), [], [], false, []⟩
        ⟨"app.json", 0, none, none, .json, none, some [], none, false, none⟩).1
          = .ok (Json.obj []) from rfl]; simp)
  · rw [show (loadCmd toyAEAD
        ⟨some (jsonWriteBytes (Json.obj [])), [], [], false, []⟩
        ⟨"app.json", 0, none, none, .json, none, some [], none, false, none⟩).2.2
          = [.fread] from rfl]
    exact List.mem_singleton.mpr rfl

/-- C2 amended: the pairing rule is checked before any filesystem I/O or
secret-store mutation — with an InvalidPayload error naming the operation
and no side effects — for create, save, delete and unlock.  For load, the
rule is checked only when `withUnlock` is set, and only after the file has
been read and decoded; with `withUnlock` unset a mismatched payload is not
rejected at all. -/
theorem C2_amended (a : AEAD) (w : World) (p : ConfiguratePayload) (q : UnlockPayload)
    (hres : resolve_path p.name p.dirName p.path = .ok ()) :
    (∀ entries, p.keyringEntries = some entries → p.keyringOptions = none →
      createCmd a w p = (.error (.InvalidPayload
          ("invalid " ++ "create" ++ " payload: keyringEntries provided without keyringOptions")), w, [])
      ∧ saveCmd a w p = (.error (.InvalidPayload
          ("invalid " ++ "save" ++ " payload: keyringEntries provided without keyringOptions")), w, [])
      ∧ deleteCmd w p = (.error (.InvalidPayload
          ("invalid " ++ "delete" ++ " payload: keyringEntries provided without keyringOptions")), w, []))
    ∧ (∀ opts, p.keyringEntries = none → p.keyringOptions = some opts →
      createCmd a w p = (.error (.InvalidPayload
          ("invalid " ++ "create" ++ " payload: keyringOptions provided without keyringEntries")), w, [])
      ∧ saveCmd a w p = (.error (.InvalidPayload
          ("invalid " ++ "save" ++ " payload: keyringOptions provided without keyringEntries")), w, [])
      ∧ deleteCmd w p = (.error (.InvalidPayload
          ("invalid " ++ "delete" ++ " payload: keyringOptions provided without keyringEntries")), w, []))
    ∧ (∀ entries, q.keyringEntries = some entries → q.keyringOptions = none →
      unlockCmd w q = (.error (.InvalidPayload
          ("invalid " ++ "unlock" ++ " payload: keyringEntries provided without keyringOptions")), w, []))
    ∧ (∀ opts, q.keyringEntries = none → q.keyringOptions = some opts →
      unlockCmd w q = (.error (.InvalidPayload
          ("invalid " ++ "unlock" ++ " payload: keyringOptions provided without keyringEntries")), w, []))
    ∧ (KeyringMismatch p.keyringEntries p.keyringOptions → p.withUnlock = true →
        ∀ bs d, w.file = some bs →
        backendReadBytes a (backend_for p.format p.encryptionKey) bs = .ok d →
        ∃ m, loadCmd a w p = (.error (.InvalidPayload m), w, [.fread]))
    ∧ (p.withUnlock = false → ∀ bs d, w.file = some bs →
        backendReadBytes a (backend_for p.format p.encryptionKey) bs = .ok d →
        loadCmd a w p = (.ok d, w, [.fread])) := by
  refine ⟨?_, ?_, ?_, ?_, ?_, ?_⟩
  · intro entries hent hopt
    refine ⟨?_, ?_, ?_⟩ <;>
      simp [createCmd, saveCmd, deleteCmd, hres, hent, hopt, keyring_pair]
  · intro opts hent hopt
    refine ⟨?_, ?_, ?_⟩ <;>
      simp [createCmd, saveCmd, deleteCmd, hres, hent, hopt, keyring_pair]
  · intro entries hent hopt
    simp [unlockCmd, hent, hopt, keyring_pair]
  · intro opts hent hopt
    simp [unlockCmd, hent, hopt, keyring_pair]
  · intro hmis hwu bs d hfile hread
    obtain ⟨m, hm⟩ := keyring_pair_mismatch "load" p.keyringEntries p.keyringOptions hmis
    exact ⟨m, by simp [loadCmd, hres, hfile, hread, hwu, hm]⟩
  · intro hwu bs d hfile hread
    simp [loadCmd, hres, hfile, hread, hwu]

theorem C2_amended_witness :
    createCmd toyAEAD ⟨none, [], [], false, []⟩
        ⟨"app.json", 0, none, none, .json, none, some [], none, false, none⟩
      = (.error (.InvalidPayload
          ("invalid " ++ "create" ++ " payload: keyringEntries provided without keyringOptions")),
         ⟨none, [], [], false, []⟩, []) :=
  ((C2_amended toyAEAD ⟨none, [], [], false, []⟩
      ⟨"app.json", 0, none, none, .json, none, some [], none, false, none⟩
      ⟨Json.null, none, none⟩ (by rfl)).1 [] rfl rfl).1

/-- C6: each format codec reads back exactly what it wrote — the plain-text
codec, the plain binary codec, and (for a cipher meeting the AEAD contract,
a 24-byte nonce, and a payload within the length-prefix range) the
encrypted binary codec. -/
theorem C6_codec_roundtrips (v : Json) (a : AEAD) (keyStr : String) (nonce : List Nat)
    (ha : AEADCorrect a) (hn : nonce.length = 24)
    (hlen : (jsonEncodeBytes v).length < 256 ^ 8) :
    jsonRead (jsonWriteBytes v) = .ok v
    ∧ yamlRead (yamlWriteBytes v) = .ok v
    ∧ binRead (binWriteBytes v) = .ok v
    ∧ encRead a keyStr (encWriteBytes a keyStr nonce v) = .ok v :=
  ⟨jsonRead_write v, yamlRead_write v, binRead_write v hlen,
    encRead_write a ha keyStr nonce hn v⟩

theorem C6_witness :
    jsonRead (jsonWriteBytes (Json.obj [("k", Json.str "v")])) = .ok (Json.obj [("k", Json.str "v")])
    ∧ yamlRead (yamlWriteBytes (Json.obj [("k", Json.str "v")])) = .ok (Json.obj [("k", Json.str "v")])
    ∧ binRead (binWriteBytes (Json.obj [("k", Json.str "v")])) = .ok (Json.obj [("k", Json.str "v")])
    ∧ encRead toyAEAD "pw" (encWriteBytes toyAEAD "pw" (List.replicate 24 0)
        (Json.obj [("k", Json.str "v")])) = .ok (Json.obj [("k", Json.str "v")]) :=
  C6_codec_roundtrips (Json.obj [("k", Json.str "v")]) toyAEAD "pw" (List.replicate 24 0)
    toyAEAD_correct (by decide) (by decide)

/-! ### C3: create / load / unlock pipeline -/

theorem divergent_symm {l1 l2 : List String} (h : Divergent l1 l2) : Divergent l2 l1 :=
  ⟨h.2, h.1⟩

theorem build_user_inj (opts : KeyringOptions) (id1 id2 : String)
    (h : build_user opts id1 = build_user opts id2) : id1 = id2 := by
  unfold build_user at h
  have hd := congrArg String.data h
  simp only [String.data_append] at hd
  have h2 := List.append_cancel_left hd
  have h3 := congrArg String.mk h2
  simpa [stringMk_data] using h3

theorem keyringKey_inj (opts : KeyringOptions) (id1 id2 : String)
    (h : keyringKey opts id1 = keyringKey opts id2) : id1 = id2 := by
  unfold keyringKey at h
  exact build_user_inj opts id1 id2 (congrArg Prod.snd h)

theorem dotpathSet_ok_elim (root : Json) (path : String) (v r : Json)
    (h : dotpathSet root path v = .ok r) :
    path ≠ "" ∧ ((splitDots path).any (fun segment => segment = "")) = false
    ∧ setPath root (splitDots path) v = .ok r := by
  unfold dotpathSet at h
  split_ifs at h with h0 h1
  exact ⟨h0, Bool.eq_false_iff.mpr h1, h⟩

theorem dotpathSet_ok_intro (root : Json) (path : String) (v r : Json)
    (h0 : path ≠ "") (h1 : ((splitDots path).any (fun segment => segment = "")) = false)
    (h2 : setPath root (splitDots path) v = .ok r) :
    dotpathSet root path v = .ok r := by
  unfold dotpathSet
  simp [h0, h1, h2]

/-- Keyring-lookup frame through `apply_keyring_writes`: keys not touched by
the batch keep their prior binding (regardless of the outcome). -/
theorem akw_klookup_frame (opts : KeyringOptions) :
    ∀ (entries : List KeyringEntry) (w : World) (data : Json) (k : String × String),
    (∀ e ∈ entries, k ≠ keyringKey opts e.id) →
    klookup (apply_keyring_writes w data entries opts).2.1.keyring k
      = klookup w.keyring k := by
  intro entries
  induction entries with
  | nil => intro w data k _; simp [apply_keyring_writes]
  | cons e rest ih =>
    intro w data k hk
    have hke : ¬ (keyringKey opts e.id = k) :=
      fun hh => hk e (List.mem_cons_self _ _) hh.symm
    simp only [apply_keyring_writes]
    cases hn : nullify data e.dotpath with
    | error err => simp [klookup, hke]
    | ok d =>
      rw [ih { w with keyring := (keyringKey opts e.id, e.value) :: w.keyring } d k
        (fun e' he' => hk e' (List.mem_cons_of_mem _ he'))]
      simp [klookup, hke]

/-- After a successful `apply_keyring_writes` over a batch with pairwise
distinct ids, the keyring holds each descriptor's value at its key. -/
theorem akw_klookup_val (opts : KeyringOptions) :
    ∀ (entries : List KeyringEntry) (w : World) (data d' : Json) (w2 : World)
      (evs : List Event),
    apply_keyring_writes w data entries opts = (.ok d', w2, evs) →
    entries.Pairwise (fun e1 e2 => e1.id ≠ e2.id) →
    ∀ e ∈ entries, klookup w2.keyring (keyringKey opts e.id) = some e.value := by
  intro entries
  induction entries with
  | nil => intro w data d' w2 evs _ _ e he; exact absurd he (by simp)
  | cons e rest ih =>
    intro w data d' w2 evs h hpw e' he'
    simp only [apply_keyring_writes] at h
    cases hn : nullify data e.dotpath with
    | error err => rw [hn] at h; exact absurd h (by simp)
    | ok d1 =>
      rw [hn] at h
      simp only [Prod.ext_iff] at h
      obtain ⟨ha, hb, hc⟩ := h
      have hX : apply_keyring_writes
          { w with keyring := (keyringKey opts e.id, e.value) :: w.keyring } d1 rest opts
          = (.ok d', w2, (apply_keyring_writes
              { w with keyring := (keyringKey opts e.id, e.value) :: w.keyring }
              d1 rest opts).2.2) := by
        rw [← ha, ← hb]
      rcases List.mem_cons.mp he' with rfl | hmem
      · have hframe := akw_klookup_frame opts rest
          { w with keyring := (keyringKey opts e'.id, e'.value) :: w.keyring } d1
          (keyringKey opts e'.id)
          (fun r hr hh => (List.pairwise_cons.mp hpw).1 r hr (keyringKey_inj opts _ _ hh))
        rw [← hb]
        rw [hframe]
        simp [klookup]
      · exact ih _ d1 d' w2 _ hX (List.pairwise_cons.mp hpw).2 e' hmem

/-- Tree frame through a successful `apply_keyring_writes`: paths diverging
from every descriptor dotpath keep their value and their settability. -/
theorem akw_tree_frame (opts : KeyringOptions) :
    ∀ (entries : List KeyringEntry) (w : World) (data d' : Json) (w2 : World)
      (evs : List Event),
    apply_keyring_writes w data entries opts = (.ok d', w2, evs) →
    ∀ qs, (∀ e ∈ entries, Divergent (splitDots e.dotpath) qs) →
    lookupPath d' qs = lookupPath data qs ∧ pathObjOk d' qs = pathObjOk data qs := by
  intro entries
  induction entries with
  | nil =>
    intro w data d' w2 evs h qs _
    simp only [apply_keyring_writes, Prod.ext_iff] at h
    obtain ⟨ha, _, _⟩ := h
    cases ha
    exact ⟨rfl, rfl⟩
  | cons e rest ih =>
    intro w data d' w2 evs h qs hdiv
    simp only [apply_keyring_writes] at h
    cases hn : nullify data e.dotpath with
    | error err => rw [hn] at h; exact absurd h (by simp)
    | ok d1 =>
      rw [hn] at h
      simp only [Prod.ext_iff] at h
      obtain ⟨ha, hb, _⟩ := h
      have hX : apply_keyring_writes
          { w with keyring := (keyringKey opts e.id, e.value) :: w.keyring } d1 rest opts
          = (.ok d', w2, (apply_keyring_writes
              { w with keyring := (keyringKey opts e.id, e.value) :: w.keyring }
              d1 rest opts).2.2) := by
        rw [← ha, ← hb]
      have hsp := (dotpathSet_ok_elim data e.dotpath .null d1 hn).2.2
      have hstep1 := setPath_frame data (splitDots e.dotpath) .null d1 qs hsp
        (hdiv e (List.mem_cons_self _ _))
      have hstep2 := setPath_frame_objOk data (splitDots e.dotpath) .null d1 qs hsp
        (divergent_symm (hdiv e (List.mem_cons_self _ _)))
      have hrest := ih _ d1 d' w2 _ hX qs
        (fun e' he' => hdiv e' (List.mem_cons_of_mem _ he'))
      exact ⟨hrest.1.trans hstep1, hrest.2.trans hstep2⟩

/-- A successful `apply_keyring_writes` over a batch with pairwise diverging
dotpaths leaves null at each dotpath, keeps each dotpath settable, and
witnesses each dotpath's well-formedness. -/
theorem akw_establishes (opts : KeyringOptions) :
    ∀ (entries : List KeyringEntry) (w : World) (data d' : Json) (w2 : World)
      (evs : List Event),
    apply_keyring_writes w data entries opts = (.ok d', w2, evs) →
    entries.Pairwise
      (fun e1 e2 => Divergent (splitDots e1.dotpath) (splitDots e2.dotpath)) →
    ∀ e ∈ entries,
      lookupPath d' (splitDots e.dotpath) = some .null
      ∧ pathObjOk d' (splitDots e.dotpath) = true
      ∧ e.dotpath ≠ ""
      ∧ ((splitDots e.dotpath).any (fun segment => segment = "")) = false := by
  intro entries
  induction entries with
  | nil => intro w data d' w2 evs _ _ e he; exact absurd he (by simp)
  | cons e rest ih =>
    intro w data d' w2 evs h hpw e' he'
    simp only [apply_keyring_writes] at h
    cases hn : nullify data e.dotpath with
    | error err => rw [hn] at h; exact absurd h (by simp)
    | ok d1 =>
      rw [hn] at h
      simp only [Prod.ext_iff] at h
      obtain ⟨ha, hb, _⟩ := h
      have hX : apply_keyring_writes
          { w with keyring := (keyringKey opts e.id, e.value) :: w.keyring } d1 rest opts
          = (.ok d', w2, (apply_keyring_writes
              { w with keyring := (keyringKey opts e.id, e.value) :: w.keyring }
              d1 rest opts).2.2) := by
        rw [← ha, ← hb]
      obtain ⟨hp0, hp1, hsp⟩ := dotpathSet_ok_elim data e.dotpath .null d1 hn
      rcases List.mem_cons.mp he' with rfl | hmem
      · have hdivs : ∀ r ∈ rest, Divergent (splitDots r.dotpath) (splitDots e'.dotpath) :=
          fun r hr => divergent_symm ((List.pairwise_cons.mp hpw).1 r hr)
        have hframe := akw_tree_frame opts rest _ d1 d' w2 _ hX (splitDots e'.dotpath) hdivs
        refine ⟨?_, ?_, hp0, hp1⟩
        · rw [hframe.1]
          exact setPath_lookupPath data _ .null d1 hsp
        · rw [hframe.2]
          exact setPath_preserves_own data _ .null d1 hsp
      · exact ih _ d1 d' w2 _ hX (List.pairwise_cons.mp hpw).2 e' hmem

/-- Tree frame through a successful `apply_keyring_reads`. -/
theorem akr_tree_frame (opts : KeyringOptions) (w : World) :
    ∀ (entries : List KeyringEntry) (data t : Json) (w2 : World) (evs : List Event),
    apply_keyring_reads w data entries opts = (.ok t, w2, evs) →
    ∀ qs, (∀ e ∈ entries, Divergent (splitDots e.dotpath) qs) →
    lookupPath t qs = lookupPath data qs := by
  intro entries
  induction entries with
  | nil =>
    intro data t w2 evs h qs _
    simp only [apply_keyring_reads, Prod.ext_iff] at h
    obtain ⟨ha, _, _⟩ := h
    cases ha
    rfl
  | cons e rest ih =>
    intro data t w2 evs h qs hdiv
    simp only [apply_keyring_reads] at h
    cases hk : klookup w.keyring (keyringKey opts e.id) with
    | none => rw [hk] at h; exact absurd h (by simp)
    | some secret =>
      simp only [hk] at h
      cases hs : dotpathSet data e.dotpath (parseOrStr secret) with
      | error err => simp only [hs] at h; exact absurd h (by simp)
      | ok d1 =>
        simp only [hs] at h
        simp only [Prod.ext_iff] at h
        obtain ⟨ha, hb, _⟩ := h
        have hX : apply_keyring_reads w d1 rest opts
            = (.ok t, w2, (apply_keyring_reads w d1 rest opts).2.2) := by
          rw [← ha, ← hb]
        have hsp := (dotpathSet_ok_elim data e.dotpath (parseOrStr secret) d1 hs).2.2
        have hstep := setPath_frame data (splitDots e.dotpath) (parseOrStr secret) d1 qs
          hsp (hdiv e (List.mem_cons_self _ _))
        have hrest := ih d1 t w2 _ hX qs (fun e' he' => hdiv e' (List.mem_cons_of_mem _ he'))
        exact hrest.trans hstep

/-- `apply_keyring_reads` succeeds on a well-formed batch and inlines the
parse-or-string of each stored value at its dotpath. -/
theorem akr_main (opts : KeyringOptions) (w : World) :
    ∀ (entries : List KeyringEntry) (data : Json),
    (∀ e ∈ entries, klookup w.keyring (keyringKey opts e.id) = some e.value) →
    (∀ e ∈ entries, pathObjOk data (splitDots e.dotpath) = true
      ∧ e.dotpath ≠ ""
      ∧ ((splitDots e.dotpath).any (fun segment => segment = "")) = false) →
    entries.Pairwise
      (fun e1 e2 => Divergent (splitDots e1.dotpath) (splitDots e2.dotpath)) →
    ∃ t evs, apply_keyring_reads w data entries opts = (.ok t, w, evs)
      ∧ ∀ e ∈ entries, lookupPath t (splitDots e.dotpath) = some (parseOrStr e.value) := by
  intro entries
  induction entries with
  | nil =>
    intro data _ _ _
    exact ⟨data, [], rfl, fun e he => absurd he (by simp)⟩
  | cons e rest ih =>
    intro data hks hwf hpw
    obtain ⟨hobj, hp0, hp1⟩ := hwf e (List.mem_cons_self _ _)
    obtain ⟨d1, hd1⟩ := (setPath_ok_iff data (splitDots e.dotpath) (parseOrStr e.value)).mpr hobj
    have hset : dotpathSet data e.dotpath (parseOrStr e.value) = .ok d1 :=
      dotpathSet_ok_intro data e.dotpath (parseOrStr e.value) d1 hp0 hp1 hd1
    have hwf' : ∀ r ∈ rest, pathObjOk d1 (splitDots r.dotpath) = true
        ∧ r.dotpath ≠ ""
        ∧ ((splitDots r.dotpath).any (fun segment => segment = "")) = false := by
      intro r hr
      obtain ⟨hro, hr0, hr1⟩ := hwf r (List.mem_cons_of_mem _ hr)
      refine ⟨?_, hr0, hr1⟩
      rw [setPath_frame_objOk data (splitDots e.dotpath) (parseOrStr e.value) d1
        (splitDots r.dotpath) hd1
        (divergent_symm ((List.pairwise_cons.mp hpw).1 r hr))]
      exact hro
    obtain ⟨t, evs, hrec, hlook⟩ := ih d1
      (fun r hr => hks r (List.mem_cons_of_mem _ hr)) hwf'
      (List.pairwise_cons.mp hpw).2
    refine ⟨t, .kget (keyringKey opts e.id) :: evs, ?_, ?_⟩
    · simp only [apply_keyring_reads, hks e (List.mem_cons_self _ _), hset, hrec]
    · intro e' he'
      rcases List.mem_cons.mp he' with rfl | hmem
      · have hframe := akr_tree_frame opts w rest d1 t w evs hrec (splitDots e'.dotpath)
          (fun r hr => divergent_symm ((List.pairwise_cons.mp hpw).1 r hr))
        rw [hframe]
        exact setPath_lookupPath data _ (parseOrStr e'.value) d1 hd1
      · exact hlook e' hmem

/-- C3 counterexample.  First scenario: one descriptor with value `"123"`.
`create` stores it and writes `{"a": null}`; `load` without unlock yields
null at the dotpath; but `unlock` JSON-parses the fetched secret, so the
tree holds the NUMBER `123` at the dotpath — not the string `"123"` the
descriptor carried.  Second scenario: with overlapping dotpaths
(`"a.b"` and `"a"`) `create` succeeds, yet the written tree has no value at
all at `"a.b"` (its parent was nullified), so not every descriptor dotpath
reads back null. -/
theorem C3_counterexample :
    createCmd toyAEAD ⟨none, [], [], false, []⟩
        ⟨"app.json", 0, none, none, .json, some (.obj []),
          some [⟨"k", "a", "123"⟩], some ⟨"svc", "acc"⟩, false, none⟩
      = (.ok (Json.obj [("a", Json.null)]),
         ⟨some (jsonWriteBytes (Json.obj [("a", Json.null)])),
          [(("svc", "acc/k"), "123")], [], false, []⟩,
         [.kset ("svc", "acc/k") "123",
          .fwrite (jsonWriteBytes (Json.obj [("a", Json.null)]))])
    ∧ loadCmd toyAEAD
        ⟨some (jsonWriteBytes (Json.obj [("a", Json.null)])),
         [(("svc", "acc/k"), "123")], [], false, []⟩
        ⟨"app.json", 0, none, none, .json, none, none, none, false, none⟩
      = (.ok (Json.obj [("a", Json.null)]),
         ⟨some (jsonWriteBytes (Json.obj [("a", Json.null)])),
          [(("svc", "acc/k"), "123")], [], false, []⟩, [.fread])
    ∧ lookupPath (Json.obj [("a", Json.null)]) (splitDots "a") = some Json.null
    ∧ unlockCmd
        ⟨some (jsonWriteBytes (Json.obj [("a", Json.null)])),
         [(("svc", "acc/k"), "123")], [], false, []⟩
        ⟨Json.obj [("a", Json.null)], some [⟨"k", "a", "123"⟩], some ⟨"svc", "acc"⟩⟩
      = (.ok (Json.obj [("a", Json.num 123)]),
         ⟨some (jsonWriteBytes (Json.obj [("a", Json.null)])),
          [(("svc", "acc/k"), "123")], [], false, []⟩,
         [.kget ("svc", "acc/k")])
    ∧ lookupPath (Json.obj [("a", Json.num 123)]) (splitDots "a") = some (Json.num 123)
    ∧ Json.num 123 ≠ Json.str "123"
    ∧ (createCmd toyAEAD ⟨none, [], [], false, []⟩
        ⟨"app.json", 0, none, none, .json,
          some (.obj [("a", .obj [("b", .str "x")])]),
          some [⟨"k1", "a.b", "v1"⟩, ⟨"k2", "a", "v2"⟩], some ⟨"svc", "acc"⟩,
          false, none⟩).1
      = .ok (Json.obj [("a", Json.null)])
    ∧ lookupPath (Json.obj [("a", Json.null)]) (splitDots "a.b") = none := by
  refine ⟨rfl, rfl, rfl, rfl, rfl, ?_, rfl, rfl⟩
  intro hcontra
  exact Json.noConfusion hcontra

/-- C3 amended: for a well-formed batch — pairwise distinct ids and pairwise
non-overlapping dotpaths — after a successful `create`, `load` with
`withUnlock = false` returns the on-disk tree, which is null at every
descriptor dotpath, and `unlock` applied to that tree with the original
descriptors and options yields at each dotpath the stored string parsed as
a structured value when it parses as one, else the raw string (the
create-time value itself only when it does not parse as JSON). -/
theorem C3_amended (a : AEAD) (w : World) (p : ConfiguratePayload)
    (entries : List KeyringEntry) (opts : KeyringOptions) (data d' : Json)
    (w1 : World) (evs : List Event)
    (ha : AEADCorrect a) (hn : w.nonce.length = 24)
    (hres : resolve_path p.name p.dirName p.path = .ok ())
    (hent : p.keyringEntries = some entries) (hopt : p.keyringOptions = some opts)
    (hdata : p.data = some data) (hwu : p.withUnlock = false)
    (hids : entries.Pairwise (fun e1 e2 => e1.id ≠ e2.id))
    (hpaths : entries.Pairwise
      (fun e1 e2 => Divergent (splitDots e1.dotpath) (splitDots e2.dotpath)))
    (hwr : apply_keyring_writes w data entries opts = (.ok d', w1, evs))
    (hblen : (jsonEncodeBytes d').length < 256 ^ 8) :
    createCmd a w p = (.ok d',
        { w1 with file := some (backendWriteBytes a
            (backend_for p.format p.encryptionKey) w.nonce d') },
        evs ++ [.fwrite (backendWriteBytes a
            (backend_for p.format p.encryptionKey) w.nonce d')])
    ∧ (loadCmd a { w1 with file := some (backendWriteBytes a
        (backend_for p.format p.encryptionKey) w.nonce d') } p).1 = .ok d'
    ∧ (∀ e ∈ entries, lookupPath d' (splitDots e.dotpath) = some .null)
    ∧ ∃ t evs', unlockCmd
        { w1 with file := some (backendWriteBytes a
            (backend_for p.format p.encryptionKey) w.nonce d') }
        ⟨d', some entries, some opts⟩
        = (.ok t, { w1 with file := some (backendWriteBytes a
            (backend_for p.format p.encryptionKey) w.nonce d') }, evs')
      ∧ ∀ e ∈ entries, lookupPath t (splitDots e.dotpath) = some (parseOrStr e.value) := by
  have hread := backendRead_write a ha (backend_for p.format p.encryptionKey) w.nonce hn d' hblen
  refine ⟨?_, ?_, ?_, ?_⟩
  · simp only [createCmd, hres, hdata, hent, hopt, hwu, keyring_pair, hwr,
      Option.getD_some]
    simp
  · simp only [loadCmd, hres, hread, hwu]
    simp
  · exact fun e he => ((akw_establishes opts entries w data d' w1 evs hwr hpaths) e he).1
  · have hnulls := akw_establishes opts entries w data d' w1 evs hwr hpaths
    obtain ⟨t, evs', hrun, hlook⟩ := akr_main opts
      { w1 with file := some (backendWriteBytes a
          (backend_for p.format p.encryptionKey) w.nonce d') } entries d'
      (fun e he => akw_klookup_val opts entries w data d' w1 evs hwr hids e he)
      (fun e he => (hnulls e he).2) hpaths
    exact ⟨t, evs', by simp only [unlockCmd, keyring_pair, hrun], hlook⟩

theorem C3_amended_witness :
    (loadCmd toyAEAD
        ⟨some (backendWriteBytes toyAEAD (backend_for StorageFormat.json none)
            (List.replicate 24 0) (Json.obj [("a", Json.null)])),
          [(("svc", "acc/k"), "123")], List.replicate 24 0, false, []⟩
        ⟨"app.json", 0, none, none, .json, some (.obj []),
          some [⟨"k", "a", "123"⟩], some ⟨"svc", "acc"⟩, false, none⟩).1
      = .ok (Json.obj [("a", Json.null)]) :=
  (C3_amended toyAEAD ⟨none, [], List.replicate 24 0, false, []⟩
    ⟨"app.json", 0, none, none, .json, some (.obj []),
      some [⟨"k", "a", "123"⟩], some ⟨"svc", "acc"⟩, false, none⟩
    [⟨"k", "a", "123"⟩] ⟨"svc", "acc"⟩ (.obj []) (.obj [("a", .null)])
    ⟨none, [(("svc", "acc/k"), "123")], List.replicate 24 0, false, []⟩
    [.kset ("svc", "acc/k") "123"]
    toyAEAD_correct (by decide) (by rfl) rfl rfl rfl rfl
    (by simp) (by simp) (by rfl) (by decide)).2.1
